import Mathlib

/-!
# Verification of the memexwiki language-server core

This file gives a shallow embedding, in Lean 4, of the core algorithms of the
memexwiki language server (a TypeScript LSP backend) and proves or refutes the
frozen specification claims about them.

Embedded components:
* the incremental text buffer (`src/textDocument.ts`): line-offset table
  computation, `positionAt` / `offsetAt` binary-search conversions,
  range normalization, and the incremental `update`;
* the reference-key classifier (`src/types/queryWrappers.ts`, `Reference.type`);
* the task scheduler (`src/taskManager.ts`): `submitTask`, `cancelJob`, the
  priority comparator, and queue draining (`processJob`) — modelled as a
  labelled transition system whose suspension points are those of the
  original `async` code;
* the server document-lifecycle handlers (`src/server.ts`):
  `onDidCloseTextDocument`, `dropDocument`, `dropWorkspace`;
* the cache/invalidation plumbing of `Document` and `Workspace`
  (`src/types/document.ts`, `src/types/workspace.ts`, `src/util.ts`).

JS numbers that hold byte offsets or line indices are modelled as `Int`
(clamped to `Nat` where the source clamps), strings as `List Char`.
-/

-- ***************************************************************************
-- ****** INCREMENTAL TEXT BUFFER: LINE-OFFSET TABLE *************************
-- ***************************************************************************

/-- `computeLineOffsets` loop body (`src/textDocument.ts`).  `k` is the
absolute offset (`textOffset + i`) of the head character.  A `"\r\n"` pair is
consumed as a single terminator (the source advances `i` once more before
pushing `textOffset + i + 1`); a lone `'\r'` or `'\n'` each push the offset
just past themselves. -/
def computeLineOffsetsAux : List Char → Int → List Int
  | [], _ => []
  | c :: rest, k =>
    if c = '\r' then
      match rest with
      | c2 :: rest2 =>
        if c2 = '\n' then (k + 2) :: computeLineOffsetsAux rest2 (k + 2)
        else (k + 1) :: computeLineOffsetsAux (c2 :: rest2) (k + 1)
      | [] => (k + 1) :: computeLineOffsetsAux [] (k + 1)
    else if c = '\n' then (k + 1) :: computeLineOffsetsAux rest (k + 1)
    else computeLineOffsetsAux rest (k + 1)

/-- `computeLineOffsets(text, isAtLineStart, textOffset)` from
`src/textDocument.ts`: seeds the table with `textOffset` when the text starts
a line, then records one offset per line terminator. -/
def computeLineOffsets (text : List Char) (isAtLineStart : Bool)
    (textOffset : Int) : List Int :=
  (if isAtLineStart then [textOffset] else []) ++ computeLineOffsetsAux text textOffset

/-- `FullTextDocument.getLineOffsets` on a fresh document: the memoised table
is `computeLineOffsets(content, true, 0)`. -/
def getLineOffsets (content : List Char) : List Int :=
  computeLineOffsets content true 0

/-- `FullTextDocument.lineCount`: length of the line-offset table. -/
def lineCount (content : List Char) : Nat :=
  (getLineOffsets content).length

/-- Spec-level count of line terminators where a `"\r\n"` pair counts as ONE
terminator and a lone `'\r'` or `'\n'` each count as one.  Used to state the
CRLF claim against `computeLineOffsets`. -/
def lineBreakCount : List Char → Nat
  | [] => 0
  | c :: rest =>
    if c = '\r' then
      match rest with
      | c2 :: rest2 =>
        if c2 = '\n' then lineBreakCount rest2 + 1
        else lineBreakCount (c2 :: rest2) + 1
      | [] => 1
    else if c = '\n' then lineBreakCount rest + 1
    else lineBreakCount rest

@[simp] theorem computeLineOffsetsAux_nil (k : Int) :
    computeLineOffsetsAux [] k = [] := rfl

@[simp] theorem computeLineOffsetsAux_crlf (rest : List Char) (k : Int) :
    computeLineOffsetsAux ('\r' :: '\n' :: rest) k =
      (k + 2) :: computeLineOffsetsAux rest (k + 2) := by
  rw [computeLineOffsetsAux.eq_def]; simp

@[simp] theorem computeLineOffsetsAux_cr_cons (c2 : Char) (rest : List Char)
    (k : Int) (h : c2 ≠ '\n') :
    computeLineOffsetsAux ('\r' :: c2 :: rest) k =
      (k + 1) :: computeLineOffsetsAux (c2 :: rest) (k + 1) := by
  rw [computeLineOffsetsAux.eq_def]; simp [h]

@[simp] theorem computeLineOffsetsAux_cr_nil (k : Int) :
    computeLineOffsetsAux ['\r'] k = [k + 1] := by
  rw [computeLineOffsetsAux.eq_def]; simp [computeLineOffsetsAux]

@[simp] theorem computeLineOffsetsAux_lf (rest : List Char) (k : Int) :
    computeLineOffsetsAux ('\n' :: rest) k =
      (k + 1) :: computeLineOffsetsAux rest (k + 1) := by
  rw [computeLineOffsetsAux.eq_def]
  norm_num
  intro h
  exact absurd h (by decide)

@[simp] theorem computeLineOffsetsAux_other (c : Char) (rest : List Char)
    (k : Int) (h1 : c ≠ '\r') (h2 : c ≠ '\n') :
    computeLineOffsetsAux (c :: rest) k = computeLineOffsetsAux rest (k + 1) := by
  rw [computeLineOffsetsAux.eq_def]; simp [h1, h2]

@[simp] theorem lineBreakCount_nil : lineBreakCount [] = 0 := rfl

@[simp] theorem lineBreakCount_crlf (rest : List Char) :
    lineBreakCount ('\r' :: '\n' :: rest) = lineBreakCount rest + 1 := by
  rw [lineBreakCount.eq_def]; simp

@[simp] theorem lineBreakCount_cr_cons (c2 : Char) (rest : List Char)
    (h : c2 ≠ '\n') :
    lineBreakCount ('\r' :: c2 :: rest) = lineBreakCount (c2 :: rest) + 1 := by
  rw [lineBreakCount.eq_def]; simp [h]

@[simp] theorem lineBreakCount_cr_nil : lineBreakCount ['\r'] = 1 := by
  rw [lineBreakCount.eq_def]; simp [lineBreakCount]

@[simp] theorem lineBreakCount_lf (rest : List Char) :
    lineBreakCount ('\n' :: rest) = lineBreakCount rest + 1 := by
  rw [lineBreakCount.eq_def]
  norm_num
  intro h
  exact absurd h (by decide)

@[simp] theorem lineBreakCount_other (c : Char) (rest : List Char)
    (h1 : c ≠ '\r') (h2 : c ≠ '\n') :
    lineBreakCount (c :: rest) = lineBreakCount rest := by
  rw [lineBreakCount.eq_def]; simp [h1, h2]

theorem computeLineOffsetsAux_length (cs : List Char) (k : Int) :
    (computeLineOffsetsAux cs k).length = lineBreakCount cs := by
  induction cs, k using computeLineOffsetsAux.induct with
  | case1 k => simp
  | case2 k rest2 ih => simp [ih]
  | case3 k c2 rest2 hc2 ih => simp [hc2, ih]
  | case4 k ih => simp
  | case5 rest k hne ih => simp [ih]
  | case6 c rest k hc hc2 ih => simp [hc, hc2, ih]

/-- **C10** — For every text, the line-offset table treats a `"\r\n"` pair as a
single line terminator: `computeLineOffsets` records exactly one new line
start after the pair, while a lone CR or lone LF each start a new line; hence
`lineCount` sees CRLF as one line break.  The conjunct equations pin the
concrete tables for `"a\r\nb"`, `"a\rb"` and `"a\nb"`: the CRLF text gets ONE
entry (offset 3, just past the pair), not two. -/
theorem crlf_single_terminator :
    (∀ cs : List Char, lineCount cs = 1 + lineBreakCount cs) ∧
    getLineOffsets ['a', '\r', '\n', 'b'] = [0, 3] ∧
    getLineOffsets ['a', '\r', 'b'] = [0, 2] ∧
    getLineOffsets ['a', '\n', 'b'] = [0, 2] := by
  refine ⟨fun cs => ?_, by decide, by decide, by decide⟩
  simp [lineCount, getLineOffsets, computeLineOffsets,
    computeLineOffsetsAux_length, Nat.add_comm]

-- ***************************************************************************
-- ****** INCREMENTAL TEXT BUFFER: POSITION / OFFSET CONVERSIONS *************
-- ***************************************************************************

/-- An LSP `Position` (`{line, character}`); JS numbers modelled as `Int`. -/
structure Pos where
  line : Int
  character : Int
deriving Repr, DecidableEq

/-- An LSP `Range`.  The source field `end` is a reserved word in Lean and is
rendered `stop` here. -/
structure TextRange where
  start : Pos
  stop : Pos
deriving Repr, DecidableEq

/-- The binary-search loop of `FullTextDocument.positionAt`
(`src/textDocument.ts`): returns the least index `x` in `[low, high)` with
`lineOffsets[x] > ioffset`, or `high` if there is none. -/
def bsearchLine (offsets : List Int) (ioffset : Int) (low high : Nat) : Nat :=
  if _h : low < high then
    let mid := (low + high) / 2
    if offsets.getD mid 0 > ioffset then bsearchLine offsets ioffset low mid
    else bsearchLine offsets ioffset (mid + 1) high
  else low
termination_by high - low
decreasing_by
  · have : (low + high) / 2 < high := by omega
    omega
  · have : low ≤ (low + high) / 2 := by omega
    omega

/-- `FullTextDocument.positionAt(offset)` over a given offset table: clamp the
offset into `[0, contentLength]`, binary-search the table, and return
`{line := low - 1, character := ioffset - lineOffsets[line]}`.  The table
always starts with offset `0` (it is `computeLineOffsets(content, true, 0)`),
so the search result `low` is at least 1 and `line` is never negative. -/
def positionAtWith (offsets : List Int) (contentLength : Nat)
    (offset : Int) : Pos :=
  let ioffset := max (min offset (contentLength : Int)) 0
  if offsets.length = 0 then
    ⟨0, ioffset⟩
  else
    let low := bsearchLine offsets ioffset 0 offsets.length
    ⟨(low : Int) - 1, ioffset - offsets.getD (low - 1) 0⟩

/-- `FullTextDocument.offsetAt(position)` over a given offset table: a line
past the table maps to the content length, a negative line to 0; otherwise the
character is clamped between the line start and the next line start (or the
content length on the last line). -/
def offsetAtWith (offsets : List Int) (contentLength : Nat) (p : Pos) : Int :=
  if p.line ≥ (offsets.length : Int) then (contentLength : Int)
  else if p.line < 0 then 0
  else
    let ln : Nat := p.line.toNat
    let lineOffset := offsets.getD ln 0
    let nextLineOffset :=
      if ln + 1 < offsets.length then offsets.getD (ln + 1) 0
      else (contentLength : Int)
    max (min (lineOffset + p.character) nextLineOffset) lineOffset

/-- `positionAt` of a fresh document with content `cs`. -/
def positionAt (cs : List Char) (offset : Int) : Pos :=
  positionAtWith (getLineOffsets cs) cs.length offset

/-- `offsetAt` of a fresh document with content `cs`. -/
def offsetAt (cs : List Char) (p : Pos) : Int :=
  offsetAtWith (getLineOffsets cs) cs.length p

theorem computeLineOffsetsAux_bounds (cs : List Char) (k : Int) :
    ∀ x ∈ computeLineOffsetsAux cs k, k + 1 ≤ x ∧ x ≤ k + cs.length := by
  induction cs, k using computeLineOffsetsAux.induct with
  | case1 k => simp
  | case2 k rest2 ih =>
    simp only [computeLineOffsetsAux_crlf, List.mem_cons, List.length_cons]
    rintro x (rfl | hx)
    · omega
    · have := ih x hx
      push_cast
      omega
  | case3 k c2 rest2 hc2 ih =>
    simp only [computeLineOffsetsAux_cr_cons c2 rest2 k hc2, List.mem_cons,
      List.length_cons]
    rintro x (rfl | hx)
    · omega
    · have := ih x hx
      simp only [List.length_cons] at this ⊢
      push_cast at this ⊢
      omega
  | case4 k ih => simp
  | case5 rest k hne ih =>
    simp only [computeLineOffsetsAux_lf, List.mem_cons, List.length_cons]
    rintro x (rfl | hx)
    · omega
    · have := ih x hx
      push_cast at this ⊢
      omega
  | case6 c rest k hc hc2 ih =>
    simp only [computeLineOffsetsAux_other c rest k hc hc2, List.length_cons]
    intro x hx
    have := ih x hx
    push_cast at this ⊢
    omega

theorem computeLineOffsetsAux_chain (cs : List Char) (k : Int) :
    List.Chain' (· < ·) (computeLineOffsetsAux cs k) := by
  induction cs, k using computeLineOffsetsAux.induct with
  | case1 k => simp
  | case2 k rest2 ih =>
    rw [computeLineOffsetsAux_crlf]
    refine List.chain'_cons'.mpr ⟨?_, ih⟩
    intro y hy
    have := computeLineOffsetsAux_bounds rest2 (k + 2) y (List.mem_of_mem_head? hy)
    omega
  | case3 k c2 rest2 hc2 ih =>
    rw [computeLineOffsetsAux_cr_cons c2 rest2 k hc2]
    refine List.chain'_cons'.mpr ⟨?_, ih⟩
    intro y hy
    have := computeLineOffsetsAux_bounds (c2 :: rest2) (k + 1) y (List.mem_of_mem_head? hy)
    omega
  | case4 k ih => simp
  | case5 rest k hne ih =>
    rw [computeLineOffsetsAux_lf]
    refine List.chain'_cons'.mpr ⟨?_, ih⟩
    intro y hy
    have := computeLineOffsetsAux_bounds rest (k + 1) y (List.mem_of_mem_head? hy)
    omega
  | case6 c rest k hc hc2 ih =>
    rw [computeLineOffsetsAux_other c rest k hc hc2]
    exact ih

theorem getLineOffsets_head (cs : List Char) :
    ∃ t, getLineOffsets cs = 0 :: t ∧ t = computeLineOffsetsAux cs 0 := by
  exact ⟨computeLineOffsetsAux cs 0, rfl, rfl⟩

theorem getLineOffsets_length_pos (cs : List Char) :
    0 < (getLineOffsets cs).length := by
  simp [getLineOffsets, computeLineOffsets]

theorem getLineOffsets_chain (cs : List Char) :
    List.Chain' (· < ·) (getLineOffsets cs) := by
  refine List.chain'_cons'.mpr ⟨?_, computeLineOffsetsAux_chain cs 0⟩
  intro y hy
  have := computeLineOffsetsAux_bounds cs 0 y (List.mem_of_mem_head? hy)
  omega

theorem getLineOffsets_mem_bounds (cs : List Char) :
    ∀ x ∈ getLineOffsets cs, 0 ≤ x ∧ x ≤ (cs.length : Int) := by
  intro x hx
  rcases List.mem_cons.mp hx with rfl | hx'
  · omega
  · have := computeLineOffsetsAux_bounds cs 0 x hx'
    omega

theorem chain_lt_getD_mono (l : List Int) (hl : List.Chain' (· < ·) l)
    (i j : Nat) (hij : i ≤ j) (hj : j < l.length) :
    l.getD i 0 ≤ l.getD j 0 := by
  rcases eq_or_lt_of_le hij with rfl | hlt
  · exact le_refl _
  · have hi : i < l.length := lt_trans hlt hj
    have hp := (List.chain'_iff_pairwise).mp hl
    have hg := List.pairwise_iff_get.mp hp ⟨i, hi⟩ ⟨j, hj⟩ hlt
    rw [List.getD_eq_getElem l 0 hi, List.getD_eq_getElem l 0 hj]
    simpa using le_of_lt hg

theorem bsearchLine_stop (offsets : List Int) (io : Int) (low high : Nat)
    (h : ¬ low < high) : bsearchLine offsets io low high = low := by
  rw [bsearchLine]; simp [h]

theorem bsearchLine_left (offsets : List Int) (io : Int) (low high : Nat)
    (h : low < high) (hm : offsets.getD ((low + high) / 2) 0 > io) :
    bsearchLine offsets io low high =
      bsearchLine offsets io low ((low + high) / 2) := by
  rw [bsearchLine]
  simp only [h, dite_true]
  rw [if_pos hm]

theorem bsearchLine_right (offsets : List Int) (io : Int) (low high : Nat)
    (h : low < high) (hm : ¬ offsets.getD ((low + high) / 2) 0 > io) :
    bsearchLine offsets io low high =
      bsearchLine offsets io ((low + high) / 2 + 1) high := by
  rw [bsearchLine]
  simp only [h, dite_true]
  rw [if_neg hm]

theorem bsearchLine_spec (offsets : List Int) (io : Int)
    (mono : ∀ i j, i ≤ j → j < offsets.length →
      offsets.getD i 0 ≤ offsets.getD j 0) :
    ∀ n low high, high - low ≤ n → low ≤ high → high ≤ offsets.length →
    (∀ j, j < low → offsets.getD j 0 ≤ io) →
    (∀ j, high ≤ j → j < offsets.length → io < offsets.getD j 0) →
    low ≤ bsearchLine offsets io low high ∧
    bsearchLine offsets io low high ≤ high ∧
    (∀ j, j < bsearchLine offsets io low high → offsets.getD j 0 ≤ io) ∧
    (∀ j, bsearchLine offsets io low high ≤ j → j < offsets.length →
      io < offsets.getD j 0) := by
  intro n
  induction n with
  | zero =>
    intro low high hn hlh hhl hlow hhigh
    have heq : ¬ low < high := by omega
    rw [bsearchLine_stop offsets io low high heq]
    have : low = high := by omega
    exact ⟨le_refl _, hlh, hlow, fun j hj hjl => hhigh j (by omega) hjl⟩
  | succ m ih =>
    intro low high hn hlh hhl hlow hhigh
    by_cases hcmp : low < high
    · by_cases hmid : offsets.getD ((low + high) / 2) 0 > io
      · rw [bsearchLine_left offsets io low high hcmp hmid]
        have hmidlt : (low + high) / 2 < high := by omega
        have hhighstep : ∀ j, (low + high) / 2 ≤ j → j < offsets.length →
            io < offsets.getD j 0 := by
          intro j hj hjl
          calc io < offsets.getD ((low + high) / 2) 0 := hmid
            _ ≤ offsets.getD j 0 := mono _ _ hj hjl
        have hres := ih low ((low + high) / 2) (by omega) (by omega) (by omega)
          hlow hhighstep
        exact ⟨hres.1, le_trans hres.2.1 (by omega), hres.2.2.1, hres.2.2.2⟩
      · rw [bsearchLine_right offsets io low high hcmp hmid]
        have hle : offsets.getD ((low + high) / 2) 0 ≤ io := by omega
        have hmidlt : (low + high) / 2 < high := by omega
        have hlowstep : ∀ j, j < (low + high) / 2 + 1 → offsets.getD j 0 ≤ io := by
          intro j hj
          calc offsets.getD j 0 ≤ offsets.getD ((low + high) / 2) 0 :=
                mono _ _ (by omega) (by omega)
            _ ≤ io := hle
        have hres := ih ((low + high) / 2 + 1) high (by omega) (by omega) hhl
          hlowstep hhigh
        exact ⟨le_trans (by omega) hres.1, hres.2.1, hres.2.2.1, hres.2.2.2⟩
    · rw [bsearchLine_stop offsets io low high hcmp]
      have : low = high := by omega
      exact ⟨le_refl _, hlh, hlow, fun j hj hjl => hhigh j (by omega) hjl⟩

theorem getLineOffsets_getD_mono (cs : List Char) (i j : Nat) (hij : i ≤ j)
    (hj : j < (getLineOffsets cs).length) :
    (getLineOffsets cs).getD i 0 ≤ (getLineOffsets cs).getD j 0 :=
  chain_lt_getD_mono _ (getLineOffsets_chain cs) i j hij hj

theorem getLineOffsets_getD_zero (cs : List Char) :
    (getLineOffsets cs).getD 0 0 = 0 := rfl

theorem getLineOffsets_getD_bounds (cs : List Char) (i : Nat)
    (hi : i < (getLineOffsets cs).length) :
    0 ≤ (getLineOffsets cs).getD i 0 ∧
      (getLineOffsets cs).getD i 0 ≤ (cs.length : Int) := by
  rw [List.getD_eq_getElem _ 0 hi]
  exact getLineOffsets_mem_bounds cs _ (List.getElem_mem hi)

theorem offsetAt_bounds (cs : List Char) (p : Pos) :
    0 ≤ offsetAt cs p ∧ offsetAt cs p ≤ (cs.length : Int) := by
  unfold offsetAt offsetAtWith
  by_cases h1 : p.line ≥ ((getLineOffsets cs).length : Int)
  · simp [h1]
  · simp only [h1, if_false]
    by_cases h2 : p.line < 0
    · simp [h2]
    · simp only [h2, if_false]
      have hln : p.line.toNat < (getLineOffsets cs).length := by omega
      have hlo := getLineOffsets_getD_bounds cs p.line.toNat hln
      by_cases h3 : p.line.toNat + 1 < (getLineOffsets cs).length
      · have hnext := getLineOffsets_getD_bounds cs (p.line.toNat + 1) h3
        simp only [h3, if_true]
        omega
      · simp only [h3, if_false]
        omega

theorem offsetAt_positionAt_of_le (cs : List Char) (io : Nat)
    (hio : io ≤ cs.length) :
    offsetAt cs (positionAt cs (io : Int)) = (io : Int) := by
  have hlenpos := getLineOffsets_length_pos cs
  set offsets := getLineOffsets cs with hoff
  set len := offsets.length with hlen
  -- the clamp in positionAt is the identity here
  have hclamp : max (min (io : Int) (cs.length : Int)) 0 = (io : Int) := by omega
  have hne : ¬ len = 0 := by omega
  -- binary-search facts
  have hspec := bsearchLine_spec offsets (io : Int)
    (fun i j hij hj => getLineOffsets_getD_mono cs i j hij hj)
    len 0 len (by omega) (by omega) (by omega)
    (fun j hj => absurd hj (Nat.not_lt_zero j))
    (fun j hj hjl => absurd (lt_of_le_of_lt hj hjl) (lt_irrefl _))
  set r := bsearchLine offsets (io : Int) 0 len with hr
  obtain ⟨-, hrle, hlow, hhigh⟩ := hspec
  have hrpos : 1 ≤ r := by
    by_contra hcon
    have hr0 : r = 0 := by omega
    have := hhigh 0 (by omega) (by omega)
    rw [getLineOffsets_getD_zero cs] at this
    omega
  have hlo : offsets.getD (r - 1) 0 ≤ (io : Int) := hlow (r - 1) (by omega)
  -- unfold positionAt
  have hpos : positionAt cs (io : Int) =
      ⟨(r : Int) - 1, (io : Int) - offsets.getD (r - 1) 0⟩ := by
    unfold positionAt positionAtWith
    rw [← hoff, hclamp]
    simp only [← hlen, hne, if_false]
  rw [hpos]
  -- unfold offsetAt
  unfold offsetAt offsetAtWith
  rw [← hoff, ← hlen]
  have hb1 : ¬ ((⟨(r : Int) - 1, (io : Int) - offsets.getD (r - 1) 0⟩ : Pos).line
      ≥ (len : Int)) := by
    simp only []
    omega
  have hb2 : ¬ ((⟨(r : Int) - 1, (io : Int) - offsets.getD (r - 1) 0⟩ : Pos).line
      < 0) := by
    simp only []
    omega
  simp only [hb1, if_false, hb2]
  have htn : ((r : Int) - 1).toNat = r - 1 := by omega
  simp only [htn]
  by_cases h3 : r - 1 + 1 < len
  · have hnext : (io : Int) < offsets.getD (r - 1 + 1) 0 := by
      have : r - 1 + 1 = r := by omega
      rw [this]
      exact hhigh r (le_refl r) (by omega)
    simp only [h3, if_true]
    omega
  · simp only [h3, if_false]
    omega

/-- **C6** — For every document text and every position `p`,
`offsetAt (positionAt (offsetAt p)) = offsetAt p`, where `positionAt` and
`offsetAt` are the binary-search conversions over the line-offset table and
`offsetAt` clamps out-of-range line/character values to valid bounds.  (The
theorem holds for ALL positions, in particular for every position valid with
respect to the text.) -/
theorem offsetAt_positionAt_offsetAt (cs : List Char) (p : Pos) :
    offsetAt cs (positionAt cs (offsetAt cs p)) = offsetAt cs p := by
  obtain ⟨h0, hlen⟩ := offsetAt_bounds cs p
  have hnat : ((offsetAt cs p).toNat : Int) = offsetAt cs p := by omega
  rw [← hnat]
  exact offsetAt_positionAt_of_le cs (offsetAt cs p).toNat (by omega)

-- ***************************************************************************
-- ****** INCREMENTAL TEXT BUFFER: UPDATE ************************************
-- ***************************************************************************

/-- `getWellformedRange` (`src/textDocument.ts`): a range whose start lies
after its end is normalized by swapping the two positions. -/
def getWellformedRange (range : TextRange) : TextRange :=
  if range.start.line > range.stop.line ∨
      (range.start.line = range.stop.line ∧
        range.start.character > range.stop.character) then
    ⟨range.stop, range.start⟩
  else range

/-- A malformed range in the sense of `getWellformedRange`: start strictly
after end in (line, character) lexicographic order. -/
def MalformedRange (range : TextRange) : Prop :=
  range.start.line > range.stop.line ∨
    (range.start.line = range.stop.line ∧
      range.start.character > range.stop.character)

instance (range : TextRange) : Decidable (MalformedRange range) := by
  unfold MalformedRange; infer_instance

/-- State of a `FullTextDocument`: `_content`, the memoised `_lineOffsets`
table, and `_version`.  (The parse tree lives in the external tree-sitter
dependency and carries no observable state of its own here.) -/
structure TextDocState where
  content : List Char
  lineOffsets : Option (List Int)
  version : Int
deriving Repr, DecidableEq

/-- `FullTextDocument.getLineOffsets`: return the memoised table, computing
`computeLineOffsets(content, true, 0)` when absent. -/
def getLineOffsetsOf (d : TextDocState) : List Int :=
  match d.lineOffsets with
  | some l => l
  | none => computeLineOffsets d.content true 0

/-- One incremental change of `FullTextDocument.update`
(`src/textDocument.ts`, lines 448–489): normalize the range, splice the new
text into the content, splice freshly computed offsets for the inserted text
into the offset table, and shift all following offsets by the length delta.
The three source branches for updating the table (in-place overwrite when the
counts match, `splice`, and the slice/concat fallback for over-long argument
lists) all compute the list
`take (startLine+1) ++ added ++ drop (endLine+1)`; the tree edit applied
afterwards lives in the external parser. -/
def applyIncremental (d : TextDocState) (range : TextRange)
    (txt : List Char) : TextDocState :=
  let wrange := getWellformedRange range
  let lineOffsets := getLineOffsetsOf d
  let startOffset := offsetAtWith lineOffsets d.content.length wrange.start
  let endOffset := offsetAtWith lineOffsets d.content.length wrange.stop
  let newContent := d.content.take startOffset.toNat ++ txt ++
    d.content.drop endOffset.toNat
  let startLine := (max wrange.start.line 0).toNat
  let endLine := (max wrange.stop.line 0).toNat
  let addedLineOffsets := computeLineOffsetsAux txt startOffset
  let spliced := lineOffsets.take (startLine + 1) ++ addedLineOffsets ++
    lineOffsets.drop (endLine + 1)
  let diff : Int := (txt.length : Int) - (endOffset - startOffset)
  let shifted :=
    if diff ≠ 0 then
      spliced.mapIdx (fun i x =>
        if startLine + 1 + addedLineOffsets.length ≤ i then x + diff else x)
    else spliced
  { content := newContent, lineOffsets := some shifted, version := d.version }

/-- `FullTextDocument.update` change events: the incremental shape carries a
range, the full shape replaces the whole content (`isIncremental`/`isFull`). -/
inductive ChangeEvent where
  | incremental (range : TextRange) (text : List Char)
  | full (text : List Char)
deriving Repr, DecidableEq

/-- One change of the `changes.forEach` loop in `FullTextDocument.update`:
a full change replaces the content and drops the memoised offset table. -/
def applyChange (d : TextDocState) : ChangeEvent → TextDocState
  | .incremental range txt => applyIncremental d range txt
  | .full txt => { content := txt, lineOffsets := none, version := d.version }

/-- `FullTextDocument.update(changes, version)`: apply the changes in order,
then stamp the version (the final reparse is external). -/
def ftdUpdate (d : TextDocState) (changes : List ChangeEvent)
    (version : Int) : TextDocState :=
  let d' := changes.foldl applyChange d
  { d' with version := version }

theorem getWellformedRange_of_malformed (range : TextRange)
    (h : MalformedRange range) :
    getWellformedRange range = ⟨range.stop, range.start⟩ := by
  unfold getWellformedRange
  exact if_pos h

theorem swap_not_malformed (range : TextRange) (h : MalformedRange range) :
    ¬ MalformedRange ⟨range.stop, range.start⟩ := by
  unfold MalformedRange at h ⊢
  simp only []
  omega

/-- **C9** — For every incremental edit whose range is malformed (start after
end), `update` normalizes the range by swapping start and end before applying
the edit: the resulting document state (text, offset table, version) equals
the result of applying the same edit with the swapped, well-formed range.  A
well-formed range is passed through `getWellformedRange` unchanged. -/
theorem update_normalizes_malformed_range :
    (∀ (d : TextDocState) (range : TextRange) (txt : List Char),
      MalformedRange range →
      applyIncremental d range txt =
        applyIncremental d ⟨range.stop, range.start⟩ txt) ∧
    (∀ range : TextRange, ¬ MalformedRange range →
      getWellformedRange range = range) := by
  constructor
  · intro d range txt h
    unfold applyIncremental
    rw [getWellformedRange_of_malformed range h]
    rw [show getWellformedRange ⟨range.stop, range.start⟩ =
        ⟨range.stop, range.start⟩ from if_neg (swap_not_malformed range h)]
  · intro range h
    unfold getWellformedRange
    exact if_neg h

/-- Witness for the malformed-range theorem: the edit replacing the range
from (1,0) back to (0,0) of `"ab\ncd"` — a malformed range — behaves exactly
as the edit with the swapped range, and the well-formed range from (0,0) to
(1,0) is left unchanged. -/
theorem update_normalizes_malformed_range_witness :
    applyIncremental ⟨['a', 'b', '\n', 'c', 'd'], none, 0⟩
        ⟨⟨1, 0⟩, ⟨0, 0⟩⟩ ['x'] =
      applyIncremental ⟨['a', 'b', '\n', 'c', 'd'], none, 0⟩
        ⟨⟨0, 0⟩, ⟨1, 0⟩⟩ ['x'] ∧
    getWellformedRange ⟨⟨0, 0⟩, ⟨1, 0⟩⟩ = ⟨⟨0, 0⟩, ⟨1, 0⟩⟩ := by
  constructor
  · exact update_normalizes_malformed_range.1
      ⟨['a', 'b', '\n', 'c', 'd'], none, 0⟩ ⟨⟨1, 0⟩, ⟨0, 0⟩⟩ ['x']
      (by unfold MalformedRange; simp)
  · exact update_normalizes_malformed_range.2 ⟨⟨0, 0⟩, ⟨1, 0⟩⟩
      (by unfold MalformedRange; simp)

-- ***************************************************************************
-- ****** REFERENCE-KEY CLASSIFICATION ***************************************
-- ***************************************************************************

/-- The `ReferenceType` union from `src/types.ts`. -/
inductive ReferenceType where
  | mail
  | media
  | record
  | web
  | unknown
deriving Repr, DecidableEq

/-- Split a character list at its first `'.'`: returns the (dot-free) part
before it and the part after it, or `none` when there is no dot.  Helper for
the anchored regex `^[^. ]+\.[^. ]+\.[a-z]{8}`: since `[^. ]` excludes `'.'`,
each `[^. ]+` group must stop exactly at the next dot, so the regex match is
equivalent to this deterministic decomposition. -/
def splitAtDot : List Char → Option (List Char × List Char)
  | [] => none
  | c :: rest =>
    if c = '.' then some ([], rest)
    else
      match splitAtDot rest with
      | none => none
      | some (a, b) => some (c :: a, b)

/-- `/^https?:\/\//.test(key)`: the key starts with `"http://"` or
`"https://"`. -/
def webTest (key : List Char) : Bool :=
  "http://".data.isPrefixOf key || "https://".data.isPrefixOf key

/-- `/^[^. ]+\.[^. ]+\.[a-z]{8}/.test(key)`: two nonempty dot- and space-free
segments, each followed by a literal dot, then at least 8 characters of which
the first 8 are lowercase ASCII letters (the regex is not anchored at the
end, so anything may follow). -/
def recordTest (key : List Char) : Bool :=
  match splitAtDot key with
  | none => false
  | some (s1, r1) =>
    (!s1.isEmpty && s1.all (fun c => c ≠ ' ')) &&
      match splitAtDot r1 with
      | none => false
      | some (s2, r2) =>
        (!s2.isEmpty && s2.all (fun c => c ≠ ' ')) &&
          decide (8 ≤ r2.length) &&
          (r2.take 8).all (fun c => 'a' ≤ c ∧ c ≤ 'z')

/-- `Reference.type` (`src/types/queryWrappers.ts`): ordered classification
of a reference key.  Note the first rule tests `key.includes(' ')` — the
space character only — and the record rule is the unanchored regex
`^[^. ]+\.[^. ]+\.[a-z]{8}`. -/
def referenceType (key : List Char) : ReferenceType :=
  if key.contains ' ' then .unknown
  else if key.take 5 = "mail:".data then .mail
  else if key.take 1 = "/".data then .media
  else if webTest key then .web
  else if recordTest key then .record
  else .unknown

/-- "The third dot-separated segment is an 8-character token", read literally
from the claim: split the key on `'.'` and test whether the segment at index
2 has exactly 8 characters. -/
def thirdSegEight (key : List Char) : Bool :=
  match (key.splitOn '.').get? 2 with
  | some s => s.length == 8
  | none => false

/-- The classification rules exactly as the claim words them (for comparison
with `referenceType`): ANY whitespace present → unknown (overriding all other
rules); else prefix `"mail:"` → mail; else prefix `"/"` → media; else scheme
`http(s)://` → web; else third dot-separated segment an 8-character token →
record; otherwise unknown. -/
def claimClassify (key : List Char) : ReferenceType :=
  if key.any (fun c => c.isWhitespace) then .unknown
  else if key.take 5 = "mail:".data then .mail
  else if key.take 1 = "/".data then .media
  else if webTest key then .web
  else if thirdSegEight key then .record
  else .unknown

/-- **C5, counterexample** — the code's classifier violates the claim's rules
at two concrete keys: `"a\tb.c.abcdefghi"` contains whitespace (a tab), so
the claim classifies it unknown, but `Reference.type` only tests for the
space character and classifies it record; `"a.b.abcdefghi"` has a third
dot-separated segment of NINE characters, so the claim classifies it
unknown, but the code's unanchored regex accepts the 8-letter prefix and
classifies it record. -/
theorem referenceType_claim_counterexample :
    ("a\tb.c.abcdefghi".data.any (fun c => c.isWhitespace) = true ∧
      claimClassify "a\tb.c.abcdefghi".data = ReferenceType.unknown ∧
      referenceType "a\tb.c.abcdefghi".data = ReferenceType.record) ∧
    (claimClassify "a.b.abcdefghi".data = ReferenceType.unknown ∧
      referenceType "a.b.abcdefghi".data = ReferenceType.record) := by
  refine ⟨⟨?_, ?_, ?_⟩, ?_, ?_⟩ <;> decide

theorem splitAtDot_some_iff (key a b : List Char) :
    splitAtDot key = some (a, b) ↔ key = a ++ '.' :: b ∧ '.' ∉ a := by
  induction key generalizing a b with
  | nil => simp [splitAtDot]
  | cons c rest ih =>
    by_cases hc : c = '.'
    · subst hc
      simp only [splitAtDot, if_pos rfl]
      constructor
      · rintro h
        have : ([], rest) = (a, b) := Option.some.inj h
        obtain ⟨rfl, rfl⟩ := Prod.mk.injEq .. ▸ this
        simp_all
      · rintro ⟨heq, hnd⟩
        cases a with
        | nil => simp_all
        | cons x xs =>
          simp only [List.cons_append, List.cons.injEq] at heq
          obtain ⟨rfl, -⟩ := heq
          simp at hnd
    · rw [splitAtDot]
      rw [if_neg hc]
      cases hs : splitAtDot rest with
      | none =>
        simp only []
        constructor
        · intro h
          exact absurd h (by simp)
        · rintro ⟨heq, hnd⟩
          cases a with
          | nil => simp_all
          | cons x xs =>
            simp only [List.cons_append, List.cons.injEq] at heq
            obtain ⟨rfl, heq2⟩ := heq
            have : splitAtDot rest = some (xs, b) :=
              (ih xs b).mpr ⟨heq2, fun hm => hnd (List.mem_cons_of_mem _ hm)⟩
            rw [hs] at this
            exact absurd this (by simp)
      | some ab =>
        obtain ⟨a', b'⟩ := ab
        have hsplit := (ih a' b').mp hs
        simp only []
        constructor
        · intro h
          have : (c :: a', b') = (a, b) := Option.some.inj h
          obtain ⟨rfl, rfl⟩ := Prod.mk.injEq .. ▸ this
          refine ⟨by simp [hsplit.1], ?_⟩
          intro hm
          rcases List.mem_cons.mp hm with h' | h'
          · exact hc h'.symm
          · exact hsplit.2 h'
        · rintro ⟨heq, hnd⟩
          cases a with
          | nil => simp_all
          | cons x xs =>
            simp only [List.cons_append, List.cons.injEq] at heq
            obtain ⟨rfl, heq2⟩ := heq
            have hxs : splitAtDot rest = some (xs, b) :=
              (ih xs b).mpr ⟨heq2, fun hm => hnd (List.mem_cons_of_mem _ hm)⟩
            rw [hs] at hxs
            have : (a', b') = (xs, b) := Option.some.inj hxs
            obtain ⟨rfl, rfl⟩ := Prod.mk.injEq .. ▸ this
            rfl

/-- Declarative reading of the record rule actually implemented by the code:
the key decomposes as `s1 ++ "." ++ s2 ++ "." ++ r` where `s1` and `s2` are
nonempty and free of dots and spaces, and `r` starts with at least 8
lowercase ASCII letters (so the "third segment" may be longer than 8
characters, and only its first 8 characters are constrained). -/
def RecordSpec (key : List Char) : Prop :=
  ∃ s1 s2 r : List Char,
    key = s1 ++ '.' :: (s2 ++ '.' :: r) ∧
    s1 ≠ [] ∧ (∀ c ∈ s1, c ≠ '.' ∧ c ≠ ' ') ∧
    s2 ≠ [] ∧ (∀ c ∈ s2, c ≠ '.' ∧ c ≠ ' ') ∧
    8 ≤ r.length ∧ (∀ c ∈ r.take 8, 'a' ≤ c ∧ c ≤ 'z')

theorem recordTest_iff (key : List Char) :
    recordTest key = true ↔ RecordSpec key := by
  constructor
  · intro h
    unfold recordTest at h
    cases hs1 : splitAtDot key with
    | none => rw [hs1] at h; exact absurd h (by simp)
    | some p1 =>
      obtain ⟨s1, r1⟩ := p1
      rw [hs1] at h
      dsimp only at h
      obtain ⟨hkey1, hnd1⟩ := (splitAtDot_some_iff key s1 r1).mp hs1
      cases hs2 : splitAtDot r1 with
      | none => rw [hs2] at h; simp at h
      | some p2 =>
        obtain ⟨s2, r2⟩ := p2
        rw [hs2] at h
        dsimp only at h
        obtain ⟨hkey2, hnd2⟩ := (splitAtDot_some_iff r1 s2 r2).mp hs2
        refine ⟨s1, s2, r2, by rw [hkey1, hkey2], ?_⟩
        simp only [Bool.and_eq_true, List.all_eq_true, decide_eq_true_eq,
          Bool.not_eq_true', List.isEmpty_eq_false] at h
        obtain ⟨⟨hne1, hsp1⟩, ⟨⟨hne2, hsp2⟩, hlen⟩, hlower⟩ := h
        refine ⟨hne1, ?_, hne2, ?_, hlen, hlower⟩
        · exact fun c hc => ⟨fun hd => hnd1 (hd ▸ hc), hsp1 c hc⟩
        · exact fun c hc => ⟨fun hd => hnd2 (hd ▸ hc), hsp2 c hc⟩
  · rintro ⟨s1, s2, r, hkey, hne1, hc1, hne2, hc2, hlen, hlower⟩
    unfold recordTest
    have hs1 : splitAtDot key = some (s1, s2 ++ '.' :: r) :=
      (splitAtDot_some_iff key s1 (s2 ++ '.' :: r)).mpr
        ⟨hkey, fun hm => ((hc1 '.' hm).1 rfl)⟩
    have hs2 : splitAtDot (s2 ++ '.' :: r) = some (s2, r) :=
      (splitAtDot_some_iff (s2 ++ '.' :: r) s2 r).mpr
        ⟨rfl, fun hm => ((hc2 '.' hm).1 rfl)⟩
    rw [hs1]
    dsimp only
    rw [hs2]
    dsimp only
    simp only [Bool.and_eq_true, List.all_eq_true, decide_eq_true_eq,
      Bool.not_eq_true', List.isEmpty_eq_false]
    exact ⟨⟨hne1, fun c hc => (hc1 c hc).2⟩,
      ⟨⟨hne2, fun c hc => (hc2 c hc).2⟩, hlen⟩, hlower⟩

/-- **C5, amended** — `Reference.type` applies the ordered rules actually
implemented: a SPACE character present → unknown (overriding all other
rules); else prefix `"mail:"` → mail; else prefix `"/"` → media; else scheme
`http://` or `https://` → web; else, when the key starts with two nonempty
dot- and space-free segments each followed by a dot and then 8 lowercase
ASCII letters (the third segment may be longer; only its first 8 characters
are constrained) → record; otherwise unknown.  The claim's concrete examples
all hold: `"mail:alice@x.com"` → mail, `"/img/a.png"` → media,
`"https://x.com"` → web, `"a.b.abcdefgh"` → record, `"has space"` → unknown. -/
theorem referenceType_ordered_rules :
    (∀ k : List Char, k.contains ' ' = true →
      referenceType k = ReferenceType.unknown) ∧
    (∀ k : List Char, k.contains ' ' = false → k.take 5 = "mail:".data →
      referenceType k = ReferenceType.mail) ∧
    (∀ k : List Char, k.contains ' ' = false → ¬ k.take 5 = "mail:".data →
      k.take 1 = "/".data → referenceType k = ReferenceType.media) ∧
    (∀ k : List Char, k.contains ' ' = false → ¬ k.take 5 = "mail:".data →
      ¬ k.take 1 = "/".data → webTest k = true →
      referenceType k = ReferenceType.web) ∧
    (∀ k : List Char, k.contains ' ' = false → ¬ k.take 5 = "mail:".data →
      ¬ k.take 1 = "/".data → webTest k = false →
      (referenceType k = ReferenceType.record ↔ RecordSpec k)) ∧
    (referenceType "mail:alice@x.com".data = ReferenceType.mail ∧
      referenceType "/img/a.png".data = ReferenceType.media ∧
      referenceType "https://x.com".data = ReferenceType.web ∧
      referenceType "a.b.abcdefgh".data = ReferenceType.record ∧
      referenceType "has space".data = ReferenceType.unknown) := by
  refine ⟨?_, ?_, ?_, ?_, ?_, by decide, by decide, by decide, by decide,
    by decide⟩
  · intro k h
    unfold referenceType
    rw [if_pos h]
  · intro k h1 h2
    unfold referenceType
    rw [h1]
    simp only [Bool.false_eq_true, if_false]
    rw [if_pos h2]
  · intro k h1 h2 h3
    unfold referenceType
    rw [h1]
    simp only [Bool.false_eq_true, if_false]
    rw [if_neg h2, if_pos h3]
  · intro k h1 h2 h3 h4
    unfold referenceType
    rw [h1]
    simp only [Bool.false_eq_true, if_false]
    rw [if_neg h2, if_neg h3, if_pos h4]
  · intro k h1 h2 h3 h4
    unfold referenceType
    rw [h1]
    simp only [Bool.false_eq_true, if_false]
    rw [if_neg h2, if_neg h3, h4]
    simp only [Bool.false_eq_true, if_false]
    by_cases h5 : recordTest k = true
    · rw [if_pos h5]
      simp only [true_iff]
      exact (recordTest_iff k).mp h5
    · rw [if_neg h5]
      constructor
      · intro h; exact absurd h (by simp)
      · intro hspec
        exact absurd ((recordTest_iff k).mpr hspec) h5

/-- Witness for the amended classification theorem: each rule applied at a
concrete key through `referenceType_ordered_rules` itself. -/
theorem referenceType_ordered_rules_witness :
    referenceType "has space".data = ReferenceType.unknown ∧
    referenceType "mail:a".data = ReferenceType.mail ∧
    referenceType "/a".data = ReferenceType.media ∧
    referenceType "http://a".data = ReferenceType.web ∧
    referenceType "x.y.abcdefgh".data = ReferenceType.record :=
  ⟨referenceType_ordered_rules.1 "has space".data (by decide),
    referenceType_ordered_rules.2.1 "mail:a".data (by decide) (by decide),
    referenceType_ordered_rules.2.2.1 "/a".data (by decide) (by decide)
      (by decide),
    referenceType_ordered_rules.2.2.2.1 "http://a".data (by decide)
      (by decide) (by decide) (by decide),
    (referenceType_ordered_rules.2.2.2.2.1 "x.y.abcdefgh".data (by decide)
      (by decide) (by decide) (by decide)).mpr
      ⟨['x'], ['y'], "abcdefgh".data, by decide, by decide, by decide,
        by decide, by decide, by decide, by decide⟩⟩

-- ***************************************************************************
-- ****** TASK SCHEDULER (src/taskManager.ts) ********************************
-- ***************************************************************************

/-- A `Task` record (`src/types.ts`): id, dependency ids, and the
`lastCompleted` timestamp stamped by `processJob`.  (The
`operation`/`documentId` payload plays no role in the scheduling logic.) -/
structure SchedTask where
  id : Nat
  dependencyIds : List Nat
  lastCompleted : Option Int
deriving Repr, DecidableEq

/-- A `Job` record (`src/types.ts`): id and owning task id.  The completion
handle (promise) is identified by the job id: fulfilling the handle of job
`j` is recorded by putting `j` into the `settled` set of the state. -/
structure SchedJob where
  id : Nat
  taskId : Nat
deriving Repr, DecidableEq

/-- The scheduler state: the store collections (`tasks`, `jobs`), the
priority-queue contents (`pending`, in insertion order), the `cancelled` set
of `TaskManager`, plus observables of a run: `running` (popped and begun, not
yet finished — the suspension at `await this.executeTask(task)`), `settled`
(job ids whose handle was fulfilled), and `execLog` (one `(jobId, taskId)`
entry prepended each time a unit of work begins).  `nextJobId` is the next
fresh `Job.idCounter` value and `clock` a logical `Date.now()`. -/
structure SchedState where
  tasks : List SchedTask
  jobs : List SchedJob
  pending : List Nat
  cancelled : List Nat
  running : List Nat
  settled : List Nat
  execLog : List (Nat × Nat)
  nextJobId : Nat
  clock : Int
deriving Repr, DecidableEq

/-- `store.jobs.by('taskId', id)` — the `Task.job` association getter. -/
def findJob (jobs : List SchedJob) (taskId : Nat) : Option SchedJob :=
  jobs.find? (fun j => j.taskId == taskId)

/-- `store.jobs.by('id', id)` / `safeCollectionGet(store.jobs, 'id', id)`. -/
def findJobById (jobs : List SchedJob) (id : Nat) : Option SchedJob :=
  jobs.find? (fun j => j.id == id)

/-- `store.tasks.by('id', id)`. -/
def findTask (tasks : List SchedTask) (id : Nat) : Option SchedTask :=
  tasks.find? (fun t => t.id == id)

/-- JS `Set.prototype.add`: insert without duplicating. -/
def insertIfAbsent (x : Nat) (l : List Nat) : List Nat :=
  if x ∈ l then l else x :: l

/-- `store.tasks.update(task)`: replace the record with the given id. -/
def updateTask (tasks : List SchedTask) (t : SchedTask) : List SchedTask :=
  tasks.map (fun u => if u.id = t.id then t else u)

/-- `store.jobs.findAndRemove(\x7b id \x7d)` / `store.jobs.remove(job)`. -/
def removeJobById (jobs : List SchedJob) (id : Nat) : List SchedJob :=
  jobs.filter (fun j => j.id ≠ id)

/-- The dependency loop of `submitTask` (`taskManager.ts` lines 55–59):
for each dependency task that is unscheduled (no `lastCompleted`, no live
job at the time it is examined), submit it recursively.  `submit1` is the
recursive call; a `none` handle models a thrown store exception, which
aborts the loop (`Bool` result is `false` when the loop threw). -/
def submitDeps (submit1 : SchedState → SchedTask → Option Nat × SchedState) :
    SchedState → List SchedTask → Bool × SchedState
  | s, [] => (true, s)
  | s, d :: rest =>
    if d.lastCompleted = none ∧ findJob s.jobs d.id = none then
      match submit1 s d with
      | (none, s') => (false, s')
      | (some _, s') => submitDeps submit1 s' rest
    else submitDeps submit1 s rest

/-- `TaskManager.submitTask` (`taskManager.ts` lines 49–68).  If the task
already has a live job, return its existing handle and leave the state
untouched.  Otherwise submit unscheduled dependencies recursively, then
create a new `Job`, insert it into the store and push its id onto the
priority queue (the `jobQueue$` signal is modelled by the separate pop
steps of the transition system).  The store's unique-`taskId` constraint
makes the insert throw `DuplicateKey` when a dependency cycle already
created a job for this task; a thrown submission returns handle `none` with
the state mutated so far, like the propagated JS exception.  `fuel` bounds
the recursion depth of the model; every claim quantifies over it. -/
def submitTask (fuel : Nat) (s : SchedState) (t : SchedTask) :
    Option Nat × SchedState :=
    match findJob s.jobs t.id with
    | some j => (some j.id, s)
    | none =>
      let deps := s.tasks.filter (fun tk => t.dependencyIds.contains tk.id)
      let r :=
        match fuel with
        | 0 => (true, s)
        | fuel' + 1 => submitDeps (fun s2 d => submitTask fuel' s2 d) s deps
      match r with
      | (false, s1) => (none, s1)
      | (true, s1) =>
        match findJob s1.jobs t.id with
        | some _ => (none, s1)
        | none =>
          let newJob : SchedJob := ⟨s1.nextJobId, t.id⟩
          (some newJob.id,
            { s1 with
                jobs := s1.jobs ++ [newJob],
                pending := s1.pending ++ [newJob.id],
                nextJobId := s1.nextJobId + 1 })

/-- `TaskManager.jobCompare` (`taskManager.ts` lines 35–47): a cancelled id
compares greater (the heap pops it first and discards it); otherwise, if one
job's task lists the other's among its `dependencyIds`, the dependency
compares greater (it is popped first).  The `0` fallbacks for missing store
records model the branches `safeCollectionGet` makes unreachable under the
store's referential integrity. -/
def jobCompare (s : SchedState) (jobId1 jobId2 : Nat) : Int :=
  if jobId1 ∈ s.cancelled then 1
  else if jobId2 ∈ s.cancelled then -1
  else
    match findJobById s.jobs jobId1, findJobById s.jobs jobId2 with
    | some job1, some job2 =>
      match findTask s.tasks job1.taskId, findTask s.tasks job2.taskId with
      | some task1, some task2 =>
        if task2.id ∈ task1.dependencyIds then -1
        else if task1.id ∈ task2.dependencyIds then 1
        else 0
      | _, _ => 0
    | _, _ => 0

/-- The id a queue signal pops: a maximal element of the pending set with
respect to `jobCompare` (the binary heap's pop). -/
def isMaxPending (s : SchedState) (j : Nat) : Prop :=
  j ∈ s.pending ∧ ∀ k ∈ s.pending, jobCompare s j k ≥ 0

instance (s : SchedState) (j : Nat) : Decidable (isMaxPending s j) := by
  unfold isMaxPending; infer_instance

/-- `Server.dropDocument` per task (`server.ts` lines 563–574): if the task
has a live job, mark it cancelled (`taskManager.cancelJob`) and remove the
job record from the store; then remove the task.  This is the system's only
cancellation path — `cancelJob` has no other caller. -/
def dropTask (s : SchedState) (taskId : Nat) : SchedState :=
  let s' :=
    match findJob s.jobs taskId with
    | some job =>
      { s with
          cancelled := insertIfAbsent job.id s.cancelled,
          jobs := removeJobById s.jobs job.id }
    | none => s
  { s' with tasks := s'.tasks.filter (fun u => u.id ≠ taskId) }

/-- Labels of the scheduler transition system. -/
inductive SchedEv where
  | submit (taskId : Nat) (fuel : Nat)
  | popCancelled (jobId : Nat)
  | popRun (jobId : Nat)
  | finish (jobId : Nat)
  | cancel (jobId : Nat)
  | drop (taskId : Nat)
deriving Repr, DecidableEq

/-- The scheduler's small-step transition relation.  `submit` is the
synchronous body of `submitTask`; a queue signal pops a maximal pending id
and either discards it (`popCancelled`, clearing the mark — no execution, no
settlement) or begins the unit of work (`popRun`, the prefix of `processJob`
up to `await this.executeTask(task)`); `finish` is the rest of `processJob`
(stamp `lastCompleted`, persist the task, fulfill the handle, remove the
job); `cancel` is a bare `cancelJob` on a live job's id; `drop` is
`dropDocument`'s per-task cancellation.  Suspension points of the original
`async` code are exactly the step boundaries, so steps interleave freely. -/
inductive SchedStep : SchedState → SchedEv → SchedState → Prop where
  | submit (s : SchedState) (t : SchedTask) (fuel : Nat) (ht : t ∈ s.tasks) :
      SchedStep s (.submit t.id fuel) (submitTask fuel s t).2
  | popCancelled (s : SchedState) (j : Nat) (hmax : isMaxPending s j)
      (hc : j ∈ s.cancelled) :
      SchedStep s (.popCancelled j)
        { s with pending := s.pending.erase j,
                 cancelled := s.cancelled.erase j }
  | popRun (s : SchedState) (j : Nat) (job : SchedJob)
      (hmax : isMaxPending s j) (hc : j ∉ s.cancelled)
      (hjob : findJobById s.jobs j = some job) :
      SchedStep s (.popRun j)
        { s with pending := s.pending.erase j,
                 running := j :: s.running,
                 execLog := (j, job.taskId) :: s.execLog }
  | finish (s : SchedState) (j : Nat) (job : SchedJob) (task : SchedTask)
      (hr : j ∈ s.running) (hjob : findJobById s.jobs j = some job)
      (htask : findTask s.tasks job.taskId = some task) :
      SchedStep s (.finish j)
        { s with running := s.running.erase j,
                 tasks := updateTask s.tasks
                   { task with lastCompleted := some s.clock },
                 jobs := removeJobById s.jobs j,
                 settled := j :: s.settled,
                 clock := s.clock + 1 }
  | cancel (s : SchedState) (j : Nat) (job : SchedJob)
      (hjob : findJobById s.jobs j = some job) :
      SchedStep s (.cancel j)
        { s with cancelled := insertIfAbsent j s.cancelled }
  | drop (s : SchedState) (t : SchedTask) (ht : t ∈ s.tasks) :
      SchedStep s (.drop t.id) (dropTask s t.id)

/-- Reachability: a finite interleaving of scheduler steps. -/
def SchedReach (s s' : SchedState) : Prop :=
  Relation.ReflTransGen (fun a b => ∃ ev, SchedStep a ev b) s s'

/-- Cancellation-free reachability: steps other than `cancel` and `drop`. -/
def SchedReachNC (s s' : SchedState) : Prop :=
  Relation.ReflTransGen (fun a b => ∃ ev, SchedStep a ev b ∧
    (∀ id, ev ≠ .cancel id) ∧ (∀ tid, ev ≠ .drop tid)) s s'

/-- Well-formedness of a scheduler state: ids in the queue are distinct and
all ids ever used are below `nextJobId`; job ids and job task-ids are unique
in the store; a pending id has not begun executing, is not running and not
settled; and no id begins executing twice. -/
structure SchedWF (s : SchedState) : Prop where
  pendingNodup : s.pending.Nodup
  pendingLt : ∀ id ∈ s.pending, id < s.nextJobId
  jobsLt : ∀ j ∈ s.jobs, j.id < s.nextJobId
  cancelledLt : ∀ id ∈ s.cancelled, id < s.nextJobId
  runningLt : ∀ id ∈ s.running, id < s.nextJobId
  logLt : ∀ e ∈ s.execLog, e.1 < s.nextJobId
  settledLt : ∀ id ∈ s.settled, id < s.nextJobId
  jobsIdsNodup : (s.jobs.map (fun j => j.id)).Nodup
  jobsTaskIdsNodup : (s.jobs.map (fun j => j.taskId)).Nodup
  pendingFresh : ∀ id ∈ s.pending, (∀ e ∈ s.execLog, e.1 ≠ id) ∧
    id ∉ s.running ∧ id ∉ s.settled
  logNodup : (s.execLog.map (fun e => e.1)).Nodup

/-- What a (possibly recursive) submission does to the state: everything but
the store's jobs, the queue and the id counter is untouched, and the new jobs
are appended with fresh, strictly ordered ids and task ids that had no job
before the call (and are mutually distinct).  The witness carries the list of
newly created jobs. -/
structure SubmitExtW (s s' : SchedState) : Type where
  tasks_eq : s'.tasks = s.tasks
  cancelled_eq : s'.cancelled = s.cancelled
  running_eq : s'.running = s.running
  settled_eq : s'.settled = s.settled
  execLog_eq : s'.execLog = s.execLog
  clock_eq : s'.clock = s.clock
  nextLe : s.nextJobId ≤ s'.nextJobId
  newJobs : List SchedJob
  jobs_eq : s'.jobs = s.jobs ++ newJobs
  pending_eq : s'.pending = s.pending ++ newJobs.map (fun j => j.id)
  newIdsFresh : ∀ j ∈ newJobs, s.nextJobId ≤ j.id ∧ j.id < s'.nextJobId
  newIdsNodup : (newJobs.map (fun j => j.id)).Nodup
  newTaskIdsOld : ∀ j ∈ newJobs, findJob s.jobs j.taskId = none
  newTaskIdsNodup : (newJobs.map (fun j => j.taskId)).Nodup

/-- Propositional form of `SubmitExtW`. -/
def SubmitExt (s s' : SchedState) : Prop := Nonempty (SubmitExtW s s')

def SubmitExtW.same (s : SchedState) : SubmitExtW s s where
  tasks_eq := Eq.refl _
  cancelled_eq := Eq.refl _
  running_eq := Eq.refl _
  settled_eq := Eq.refl _
  execLog_eq := Eq.refl _
  clock_eq := Eq.refl _
  nextLe := le_refl _
  newJobs := []
  jobs_eq := by simp
  pending_eq := by simp
  newIdsFresh := by simp
  newIdsNodup := by simp
  newTaskIdsOld := by simp
  newTaskIdsNodup := by simp

theorem findJob_append_none (l l' : List SchedJob) (tid : Nat)
    (h : findJob (l ++ l') tid = none) : findJob l tid = none := by
  unfold findJob at h ⊢
  rw [List.find?_append] at h
  cases hf : l.find? (fun j => j.taskId == tid) with
  | none => rfl
  | some x => rw [hf] at h; simp at h

theorem findJob_none_iff (l : List SchedJob) (tid : Nat) :
    findJob l tid = none ↔ ∀ j ∈ l, j.taskId ≠ tid := by
  unfold findJob
  rw [List.find?_eq_none]
  constructor
  · intro h j hj; have := h j hj; simpa using this
  · intro h j hj; simpa using h j hj

def SubmitExtW.comp {s s' s'' : SchedState}
    (h1 : SubmitExtW s s') (h2 : SubmitExtW s' s'') : SubmitExtW s s'' where
  tasks_eq := h2.tasks_eq.trans h1.tasks_eq
  cancelled_eq := h2.cancelled_eq.trans h1.cancelled_eq
  running_eq := h2.running_eq.trans h1.running_eq
  settled_eq := h2.settled_eq.trans h1.settled_eq
  execLog_eq := h2.execLog_eq.trans h1.execLog_eq
  clock_eq := h2.clock_eq.trans h1.clock_eq
  nextLe := le_trans h1.nextLe h2.nextLe
  newJobs := h1.newJobs ++ h2.newJobs
  jobs_eq := by rw [h2.jobs_eq, h1.jobs_eq, List.append_assoc]
  pending_eq := by
    rw [h2.pending_eq, h1.pending_eq, List.map_append, List.append_assoc]
  newIdsFresh := by
    intro j hj
    rcases List.mem_append.mp hj with hj1 | hj2
    · obtain ⟨ha, hb⟩ := h1.newIdsFresh j hj1
      exact ⟨ha, lt_of_lt_of_le hb h2.nextLe⟩
    · obtain ⟨ha, hb⟩ := h2.newIdsFresh j hj2
      exact ⟨le_trans h1.nextLe ha, hb⟩
  newIdsNodup := by
    rw [List.map_append, List.nodup_append]
    refine ⟨h1.newIdsNodup, h2.newIdsNodup, ?_⟩
    intro x hx1 hx2
    simp only [List.mem_map] at hx1 hx2
    obtain ⟨j1, hj1, rfl⟩ := hx1
    obtain ⟨j2, hj2, hid⟩ := hx2
    have b1 := h1.newIdsFresh j1 hj1
    have b2 := h2.newIdsFresh j2 hj2
    omega
  newTaskIdsOld := by
    intro j hj
    rcases List.mem_append.mp hj with hj1 | hj2
    · exact h1.newTaskIdsOld j hj1
    · have := h2.newTaskIdsOld j hj2
      rw [h1.jobs_eq] at this
      exact findJob_append_none _ _ _ this
  newTaskIdsNodup := by
    rw [List.map_append, List.nodup_append]
    refine ⟨h1.newTaskIdsNodup, h2.newTaskIdsNodup, ?_⟩
    intro x hx1 hx2
    simp only [List.mem_map] at hx1 hx2
    obtain ⟨j1, hj1, rfl⟩ := hx1
    obtain ⟨j2, hj2, hid⟩ := hx2
    have hnone := h2.newTaskIdsOld j2 hj2
    rw [h1.jobs_eq, findJob_none_iff] at hnone
    exact hnone j1 (List.mem_append_right _ hj1) hid.symm

theorem submitTask_of_found (fuel : Nat) (s : SchedState) (t : SchedTask)
    (j : SchedJob) (h : findJob s.jobs t.id = some j) :
    submitTask fuel s t = (some j.id, s) := by
  rw [submitTask.eq_def, h]

/-- Inserting the new job at the end of a (possibly dependency-extended)
submission. -/
def insertJobExt (s : SchedState) (tid : Nat)
    (h : findJob s.jobs tid = none) :
    SubmitExtW s
      { s with jobs := s.jobs ++ [⟨s.nextJobId, tid⟩],
               pending := s.pending ++ [s.nextJobId],
               nextJobId := s.nextJobId + 1 } where
  tasks_eq := Eq.refl _
  cancelled_eq := Eq.refl _
  running_eq := Eq.refl _
  settled_eq := Eq.refl _
  execLog_eq := Eq.refl _
  clock_eq := Eq.refl _
  nextLe := by simp
  newJobs := [⟨s.nextJobId, tid⟩]
  jobs_eq := Eq.refl _
  pending_eq := by simp
  newIdsFresh := by simp
  newIdsNodup := by simp
  newTaskIdsOld := by simpa using h
  newTaskIdsNodup := by simp

theorem submitDeps_ext
    (submit1 : SchedState → SchedTask → Option Nat × SchedState)
    (h1 : ∀ s2 d, SubmitExt s2 (submit1 s2 d).2) :
    ∀ (l : List SchedTask) (s : SchedState),
      SubmitExt s (submitDeps submit1 s l).2 := by
  intro l
  induction l with
  | nil => intro s; exact ⟨SubmitExtW.same s⟩
  | cons d rest ih =>
    intro s
    rw [submitDeps]
    by_cases hd : d.lastCompleted = none ∧ findJob s.jobs d.id = none
    · rw [if_pos hd]
      cases hsub : submit1 s d with
      | mk handle s' =>
        cases handle with
        | none =>
          have := h1 s d
          rw [hsub] at this
          exact this
        | some hid =>
          have hext : SubmitExt s s' := by
            have := h1 s d
            rw [hsub] at this
            exact this
          obtain ⟨w1⟩ := hext
          obtain ⟨w2⟩ := ih s'
          exact ⟨w1.comp w2⟩
    · rw [if_neg hd]
      exact ih s

theorem submitTask_ext (fuel : Nat) :
    ∀ (s : SchedState) (t : SchedTask), SubmitExt s (submitTask fuel s t).2 := by
  induction fuel with
  | zero =>
    intro s t
    rw [submitTask.eq_def]
    cases hfj : findJob s.jobs t.id with
    | some j => exact ⟨SubmitExtW.same s⟩
    | none =>
      dsimp only
      rw [hfj]
      exact ⟨insertJobExt s t.id hfj⟩
  | succ fuel' ih =>
    intro s t
    rw [submitTask.eq_def]
    cases hfj : findJob s.jobs t.id with
    | some j => exact ⟨SubmitExtW.same s⟩
    | none =>
      dsimp only
      have hdeps := submitDeps_ext (fun s2 d => submitTask fuel' s2 d)
        (fun s2 d => ih s2 d)
        (s.tasks.filter (fun tk => t.dependencyIds.contains tk.id)) s
      cases hr : submitDeps (fun s2 d => submitTask fuel' s2 d) s
          (s.tasks.filter (fun tk => t.dependencyIds.contains tk.id)) with
      | mk ok s1 =>
        rw [hr] at hdeps
        dsimp only at hdeps
        cases ok with
        | false => exact hdeps
        | true =>
          dsimp only
          cases hfj1 : findJob s1.jobs t.id with
          | some j => exact hdeps
          | none =>
            obtain ⟨w1⟩ := hdeps
            exact ⟨w1.comp (insertJobExt s1 t.id hfj1)⟩

theorem mem_insertIfAbsent (x y : Nat) (l : List Nat) :
    x ∈ insertIfAbsent y l ↔ x = y ∨ x ∈ l := by
  unfold insertIfAbsent
  by_cases hy : y ∈ l
  · rw [if_pos hy]
    constructor
    · exact fun h => Or.inr h
    · rintro (rfl | h)
      · exact hy
      · exact h
  · rw [if_neg hy]
    exact List.mem_cons

theorem findJob_some (jobs : List SchedJob) (tid : Nat) (job : SchedJob)
    (h : findJob jobs tid = some job) : job ∈ jobs ∧ job.taskId = tid := by
  unfold findJob at h
  exact ⟨List.mem_of_find?_eq_some h, by simpa using List.find?_some h⟩

theorem findJobById_some (jobs : List SchedJob) (i : Nat) (job : SchedJob)
    (h : findJobById jobs i = some job) : job ∈ jobs ∧ job.id = i := by
  unfold findJobById at h
  exact ⟨List.mem_of_find?_eq_some h, by simpa using List.find?_some h⟩

theorem findTask_some (tasks : List SchedTask) (i : Nat) (t : SchedTask)
    (h : findTask tasks i = some t) : t ∈ tasks ∧ t.id = i := by
  unfold findTask at h
  exact ⟨List.mem_of_find?_eq_some h, by simpa using List.find?_some h⟩

theorem schedWF_submitExt {s s' : SchedState} (h : SubmitExt s s')
    (hw : SchedWF s) : SchedWF s' := by
  obtain ⟨w⟩ := h
  have hnewLt : ∀ i ∈ w.newJobs.map (fun j => j.id),
      s.nextJobId ≤ i ∧ i < s'.nextJobId := by
    intro i hi
    simp only [List.mem_map] at hi
    obtain ⟨j, hj, rfl⟩ := hi
    exact w.newIdsFresh j hj
  constructor
  · -- pendingNodup
    rw [w.pending_eq, List.nodup_append]
    refine ⟨hw.pendingNodup, w.newIdsNodup, ?_⟩
    intro x hx1 hx2
    have h1 := hw.pendingLt x hx1
    have h2 := (hnewLt x hx2).1
    omega
  · -- pendingLt
    rw [w.pending_eq]
    intro id hid
    rcases List.mem_append.mp hid with h1 | h2
    · exact lt_of_lt_of_le (hw.pendingLt id h1) w.nextLe
    · exact (hnewLt id h2).2
  · -- jobsLt
    rw [w.jobs_eq]
    intro j hj
    rcases List.mem_append.mp hj with h1 | h2
    · exact lt_of_lt_of_le (hw.jobsLt j h1) w.nextLe
    · exact (w.newIdsFresh j h2).2
  · -- cancelledLt
    rw [w.cancelled_eq]
    exact fun id hid => lt_of_lt_of_le (hw.cancelledLt id hid) w.nextLe
  · -- runningLt
    rw [w.running_eq]
    exact fun id hid => lt_of_lt_of_le (hw.runningLt id hid) w.nextLe
  · -- logLt
    rw [w.execLog_eq]
    exact fun e he => lt_of_lt_of_le (hw.logLt e he) w.nextLe
  · -- settledLt
    rw [w.settled_eq]
    exact fun id hid => lt_of_lt_of_le (hw.settledLt id hid) w.nextLe
  · -- jobsIdsNodup
    rw [w.jobs_eq, List.map_append, List.nodup_append]
    refine ⟨hw.jobsIdsNodup, w.newIdsNodup, ?_⟩
    intro x hx1 hx2
    simp only [List.mem_map] at hx1
    obtain ⟨j, hj, rfl⟩ := hx1
    have h1 := hw.jobsLt j hj
    have h2 := (hnewLt _ hx2).1
    omega
  · -- jobsTaskIdsNodup
    rw [w.jobs_eq, List.map_append, List.nodup_append]
    refine ⟨hw.jobsTaskIdsNodup, w.newTaskIdsNodup, ?_⟩
    intro x hx1 hx2
    simp only [List.mem_map] at hx1 hx2
    obtain ⟨j1, hj1, rfl⟩ := hx1
    obtain ⟨j2, hj2, htid⟩ := hx2
    have hnone := w.newTaskIdsOld j2 hj2
    rw [findJob_none_iff] at hnone
    exact hnone j1 hj1 htid.symm
  · -- pendingFresh
    rw [w.pending_eq, w.execLog_eq, w.running_eq, w.settled_eq]
    intro id hid
    rcases List.mem_append.mp hid with h1 | h2
    · exact hw.pendingFresh id h1
    · have hge := (hnewLt id h2).1
      refine ⟨?_, ?_, ?_⟩
      · intro e he
        have := hw.logLt e he
        omega
      · intro hr
        have := hw.runningLt id hr
        omega
      · intro hr
        have := hw.settledLt id hr
        omega
  · -- logNodup
    rw [w.execLog_eq]
    exact hw.logNodup

theorem schedWF_step {s s' : SchedState} {ev : SchedEv}
    (hstep : SchedStep s ev s') (hw : SchedWF s) : SchedWF s' := by
  cases hstep with
  | submit t fuel ht =>
    exact schedWF_submitExt (submitTask_ext fuel s t) hw
  | popCancelled j hmax hc =>
    constructor
    · exact hw.pendingNodup.erase j
    · exact fun id hid => hw.pendingLt id (List.mem_of_mem_erase hid)
    · exact hw.jobsLt
    · exact fun id hid => hw.cancelledLt id (List.mem_of_mem_erase hid)
    · exact hw.runningLt
    · exact hw.logLt
    · exact hw.settledLt
    · exact hw.jobsIdsNodup
    · exact hw.jobsTaskIdsNodup
    · exact fun id hid => hw.pendingFresh id (List.mem_of_mem_erase hid)
    · exact hw.logNodup
  | popRun j job hmax hc hjob =>
    have hjp : j ∈ s.pending := hmax.1
    have hjlt := hw.pendingLt j hjp
    have hjf := hw.pendingFresh j hjp
    constructor
    · exact hw.pendingNodup.erase j
    · exact fun id hid => hw.pendingLt id (List.mem_of_mem_erase hid)
    · exact hw.jobsLt
    · exact hw.cancelledLt
    · -- runningLt
      intro id hid
      rcases List.mem_cons.mp hid with rfl | h2
      · exact hjlt
      · exact hw.runningLt id h2
    · -- logLt
      intro e he
      rcases List.mem_cons.mp he with rfl | h2
      · exact hjlt
      · exact hw.logLt e h2
    · exact hw.settledLt
    · exact hw.jobsIdsNodup
    · exact hw.jobsTaskIdsNodup
    · -- pendingFresh
      intro id hid
      have hidp := List.mem_of_mem_erase hid
      have hne : id ≠ j := ((hw.pendingNodup.mem_erase_iff).mp hid).1
      obtain ⟨hlog, hrun, hset⟩ := hw.pendingFresh id hidp
      refine ⟨?_, ?_, hset⟩
      · intro e he
        rcases List.mem_cons.mp he with rfl | h2
        · exact fun hh => hne hh.symm
        · exact hlog e h2
      · intro hmem
        rcases List.mem_cons.mp hmem with h1 | h2
        · exact hne h1
        · exact hrun h2
    · -- logNodup
      simp only [List.map_cons, List.nodup_cons]
      refine ⟨?_, hw.logNodup⟩
      intro hmem
      simp only [List.mem_map] at hmem
      obtain ⟨e, he, heq⟩ := hmem
      exact (hjf.1 e he) heq
  | finish j job task hr hjob htask =>
    have hjlt := hw.runningLt j hr
    constructor
    · exact hw.pendingNodup
    · exact hw.pendingLt
    · -- jobsLt
      intro jb hjb
      exact hw.jobsLt jb (List.mem_of_mem_filter hjb)
    · exact hw.cancelledLt
    · exact fun id hid => hw.runningLt id (List.mem_of_mem_erase hid)
    · exact hw.logLt
    · -- settledLt
      intro id hid
      rcases List.mem_cons.mp hid with rfl | h2
      · exact hjlt
      · exact hw.settledLt id h2
    · -- jobsIdsNodup
      exact List.Nodup.sublist
        (List.Sublist.map _ (List.filter_sublist _)) hw.jobsIdsNodup
    · -- jobsTaskIdsNodup
      exact List.Nodup.sublist
        (List.Sublist.map _ (List.filter_sublist _)) hw.jobsTaskIdsNodup
    · -- pendingFresh
      intro id hid
      obtain ⟨hlog, hrun, hset⟩ := hw.pendingFresh id hid
      refine ⟨hlog, ?_, ?_⟩
      · intro hmem
        exact hrun (List.mem_of_mem_erase hmem)
      · intro hmem
        rcases List.mem_cons.mp hmem with rfl | h2
        · exact hrun hr
        · exact hset h2
    · exact hw.logNodup
  | cancel j job hjob =>
    have hjlt : j < s.nextJobId := by
      obtain ⟨hmem, hid⟩ := findJobById_some s.jobs j job hjob
      have := hw.jobsLt job hmem
      omega
    constructor
    · exact hw.pendingNodup
    · exact hw.pendingLt
    · exact hw.jobsLt
    · -- cancelledLt
      intro id hid
      rcases (mem_insertIfAbsent id j s.cancelled).mp hid with rfl | h2
      · exact hjlt
      · exact hw.cancelledLt id h2
    · exact hw.runningLt
    · exact hw.logLt
    · exact hw.settledLt
    · exact hw.jobsIdsNodup
    · exact hw.jobsTaskIdsNodup
    · exact hw.pendingFresh
    · exact hw.logNodup
  | drop t ht =>
    unfold dropTask
    cases hfj : findJob s.jobs t.id with
    | none =>
      dsimp only
      constructor
      · exact hw.pendingNodup
      · exact hw.pendingLt
      · exact hw.jobsLt
      · exact hw.cancelledLt
      · exact hw.runningLt
      · exact hw.logLt
      · exact hw.settledLt
      · exact hw.jobsIdsNodup
      · exact hw.jobsTaskIdsNodup
      · exact hw.pendingFresh
      · exact hw.logNodup
    | some job =>
      dsimp only
      have hjlt : job.id < s.nextJobId :=
        hw.jobsLt job (findJob_some s.jobs t.id job hfj).1
      constructor
      · exact hw.pendingNodup
      · exact hw.pendingLt
      · exact fun jb hjb => hw.jobsLt jb (List.mem_of_mem_filter hjb)
      · intro id hid
        rcases (mem_insertIfAbsent id job.id s.cancelled).mp hid with rfl | h2
        · exact hjlt
        · exact hw.cancelledLt id h2
      · exact hw.runningLt
      · exact hw.logLt
      · exact hw.settledLt
      · exact List.Nodup.sublist
          (List.Sublist.map _ (List.filter_sublist _)) hw.jobsIdsNodup
      · exact List.Nodup.sublist
          (List.Sublist.map _ (List.filter_sublist _)) hw.jobsTaskIdsNodup
      · exact hw.pendingFresh
      · exact hw.logNodup

theorem schedWF_reach {s s' : SchedState} (h : SchedReach s s')
    (hw : SchedWF s) : SchedWF s' := by
  induction h with
  | refl => exact hw
  | tail hab hbc ih =>
    obtain ⟨ev, hstep⟩ := hbc
    exact schedWF_step hstep ih

theorem filter_fst_length_le_one (l : List (Nat × Nat)) (id : Nat)
    (h : (l.map (fun e => e.1)).Nodup) :
    (l.filter (fun e => e.1 == id)).length ≤ 1 := by
  induction l with
  | nil => simp
  | cons e rest ih =>
    simp only [List.map_cons, List.nodup_cons] at h
    obtain ⟨hnot, hrest⟩ := h
    by_cases he : e.1 = id
    · rw [List.filter_cons_of_pos (by simpa using he)]
      have hempty : rest.filter (fun x => x.1 == id) = [] := by
        rw [List.filter_eq_nil_iff]
        intro x hx hxid
        apply hnot
        simp only [List.mem_map]
        exact ⟨x, hx, by simp at hxid; omega⟩
      rw [hempty]
      simp
    · rw [List.filter_cons_of_neg (by simpa using he)]
      exact ih hrest

/-- **C1** — Deduplicated submission: when a task already has a live job in
the store (`task.job !== undefined`), `submitTask` returns that job's
existing completion handle and leaves the state completely unchanged — no
new `Job` is created, so every submitter of the task before completion
shares the one handle and they all settle together.  Moreover, in every
reachable state each job's unit of work has begun at most once (exactly one
execution of the task's work per live job). -/
theorem submitTask_dedup_unique_execution :
    (∀ (fuel : Nat) (s : SchedState) (t : SchedTask) (j : SchedJob),
      findJob s.jobs t.id = some j →
      submitTask fuel s t = (some j.id, s)) ∧
    (∀ s₀ s : SchedState, SchedWF s₀ → SchedReach s₀ s →
      ∀ id : Nat, (s.execLog.filter (fun e => e.1 == id)).length ≤ 1) := by
  constructor
  · exact fun fuel s t j h => submitTask_of_found fuel s t j h
  · intro s₀ s hw hreach id
    exact filter_fst_length_le_one s.execLog id (schedWF_reach hreach hw).logNodup

/-- A state with one task (id 5) and one live job (id 3) for it. -/
def c1WitnessState : SchedState :=
  ⟨[⟨5, [], none⟩], [⟨3, 5⟩], [3], [], [], [], [], 4, 0⟩

/-- Witness for the deduplication theorem: resubmitting task 5, which has
live job 3, returns handle 3 and leaves the state untouched; and in the
(reachable, well-formed) witness state no job has executed more than once. -/
theorem submitTask_dedup_unique_execution_witness :
    submitTask 7 c1WitnessState ⟨5, [], none⟩ = (some 3, c1WitnessState) ∧
    (c1WitnessState.execLog.filter (fun e => e.1 == 3)).length ≤ 1 := by
  constructor
  · exact submitTask_dedup_unique_execution.1 7 c1WitnessState ⟨5, [], none⟩
      ⟨3, 5⟩ (by decide)
  · refine submitTask_dedup_unique_execution.2 c1WitnessState c1WitnessState
      ?_ Relation.ReflTransGen.refl 3
    constructor <;> simp [c1WitnessState]

/-- Invariant backing the cancellation claim, for a fixed job id: the id is
below the fresh-id counter, has never begun executing, is not running, its
handle has not settled, and while it is still queued it stays marked
cancelled. -/
def CancelInv (id : Nat) (s : SchedState) : Prop :=
  id < s.nextJobId ∧ (∀ e ∈ s.execLog, e.1 ≠ id) ∧ id ∉ s.running ∧
  id ∉ s.settled ∧ (id ∈ s.pending → id ∈ s.cancelled)

theorem cancelInv_step {s s' : SchedState} {ev : SchedEv} (id : Nat)
    (hstep : SchedStep s ev s') (hw : SchedWF s) (hinv : CancelInv id s) :
    CancelInv id s' := by
  obtain ⟨hlt, hlog, hrun, hset, hpc⟩ := hinv
  cases hstep with
  | submit t fuel ht =>
    obtain ⟨w⟩ := submitTask_ext fuel s t
    refine ⟨lt_of_lt_of_le hlt w.nextLe, ?_, ?_, ?_, ?_⟩
    · rw [w.execLog_eq]; exact hlog
    · rw [w.running_eq]; exact hrun
    · rw [w.settled_eq]; exact hset
    · rw [w.pending_eq, w.cancelled_eq]
      intro hmem
      rcases List.mem_append.mp hmem with h1 | h2
      · exact hpc h1
      · simp only [List.mem_map] at h2
        obtain ⟨j, hj, hid⟩ := h2
        have := (w.newIdsFresh j hj).1
        omega
  | popCancelled j hmax hc =>
    refine ⟨hlt, hlog, hrun, hset, ?_⟩
    intro hmem
    have hne : id ≠ j := ((hw.pendingNodup.mem_erase_iff).mp hmem).1
    exact List.mem_erase_of_ne hne |>.mpr (hpc (List.mem_of_mem_erase hmem))
  | popRun j job hmax hc hjob =>
    have hne : j ≠ id := by
      intro h
      subst h
      exact hc (hpc hmax.1)
    refine ⟨hlt, ?_, ?_, hset, ?_⟩
    · intro e he
      rcases List.mem_cons.mp he with rfl | h2
      · exact hne
      · exact hlog e h2
    · intro hmem
      rcases List.mem_cons.mp hmem with h1 | h2
      · exact hne h1.symm
      · exact hrun h2
    · intro hmem
      exact hpc (List.mem_of_mem_erase hmem)
  | finish j job task hr hjob htask =>
    have hne : j ≠ id := fun h => hrun (h ▸ hr)
    refine ⟨hlt, hlog, ?_, ?_, hpc⟩
    · intro hmem
      exact hrun (List.mem_of_mem_erase hmem)
    · intro hmem
      rcases List.mem_cons.mp hmem with h1 | h2
      · exact hne h1.symm
      · exact hset h2
  | cancel j job hjob =>
    refine ⟨hlt, hlog, hrun, hset, ?_⟩
    intro hmem
    exact (mem_insertIfAbsent id j s.cancelled).mpr (Or.inr (hpc hmem))
  | drop t ht =>
    unfold dropTask
    cases hfj : findJob s.jobs t.id with
    | none =>
      exact ⟨hlt, hlog, hrun, hset, hpc⟩
    | some job =>
      refine ⟨hlt, hlog, hrun, hset, ?_⟩
      intro hmem
      exact (mem_insertIfAbsent id job.id s.cancelled).mpr (Or.inr (hpc hmem))

theorem findTask_updateTask (l : List SchedTask) (v u : SchedTask) (tid : Nat)
    (h : findTask l tid = some u) :
    findTask (updateTask l v) tid = some (if v.id = tid then v else u) := by
  induction l with
  | nil => simp [findTask] at h
  | cons e rest ih =>
    unfold findTask at h
    unfold findTask updateTask
    rw [List.find?_cons] at h
    rw [List.map_cons, List.find?_cons]
    by_cases he : e.id = tid
    · have hb : (e.id == tid) = true := by simpa using he
      rw [hb] at h
      dsimp only at h
      have hu : u = e := (Option.some.inj h).symm
      by_cases hv : v.id = tid
      · have hev : e.id = v.id := by omega
        rw [if_pos hev]
        have hb2 : (v.id == tid) = true := by simpa using hv
        rw [hb2]
        rw [if_pos hv]
      · have hev : ¬ e.id = v.id := by omega
        rw [if_neg hev, hb]
        rw [if_neg hv, hu]
    · have hb : (e.id == tid) = false := by simpa using he
      rw [hb] at h
      dsimp only at h
      by_cases hev : e.id = v.id
      · rw [if_pos hev]
        have hv : ¬ v.id = tid := by omega
        have hb2 : (v.id == tid) = false := by simpa using hv
        rw [hb2]
        have := ih h
        unfold findTask updateTask at this
        exact this
      · rw [if_neg hev, hb]
        have := ih h
        unfold findTask updateTask at this
        exact this

theorem cancelInv_reach (id : Nat) {s s' : SchedState}
    (h : SchedReach s s') (hw : SchedWF s) (hi : CancelInv id s) :
    SchedWF s' ∧ CancelInv id s' := by
  induction h with
  | refl => exact ⟨hw, hi⟩
  | tail hab hbc ih =>
    obtain ⟨ev, hstep⟩ := hbc
    exact ⟨schedWF_step hstep ih.1, cancelInv_step id hstep ih.1 ih.2⟩

/-- **C3** — Cancellation semantics.  (1) If `cancelJob(id)` runs before the
id is popped (so the id is still pending and marked cancelled), then along
every continuation the job's unit of work never begins and its completion
handle is never settled — the cancelled mark makes `processJob` discard the
id without executing or fulfilling, and a discarded id can never re-enter
the queue.  (2) `cancelJob(id)` called after the id has been popped and its
execution has begun only adds the mark: the running set, the execution log,
the store and the queue are untouched, and the run still proceeds to
completion — the `finish` step remains enabled, fulfills the handle and
stamps the task's `lastCompleted`. -/
theorem cancelJob_before_after_pop :
    (∀ (s₀ s s' : SchedState) (id : Nat), SchedWF s₀ → SchedReach s₀ s →
      id ∈ s.pending → id ∈ s.cancelled → SchedReach s s' →
      (∀ tid : Nat, (id, tid) ∉ s'.execLog) ∧ id ∉ s'.settled) ∧
    (∀ (s : SchedState) (id : Nat) (job : SchedJob) (task : SchedTask),
      id ∈ s.running → findJobById s.jobs id = some job →
      findTask s.tasks job.taskId = some task →
      SchedStep s (.cancel id)
        { s with cancelled := insertIfAbsent id s.cancelled } ∧
      ({ s with cancelled := insertIfAbsent id s.cancelled } : SchedState).running
          = s.running ∧
      ({ s with cancelled := insertIfAbsent id s.cancelled } : SchedState).execLog
          = s.execLog ∧
      ({ s with cancelled := insertIfAbsent id s.cancelled } : SchedState).jobs
          = s.jobs ∧
      ({ s with cancelled := insertIfAbsent id s.cancelled } : SchedState).pending
          = s.pending ∧
      ({ s with cancelled := insertIfAbsent id s.cancelled } : SchedState).tasks
          = s.tasks ∧
      ∃ s'' : SchedState,
        SchedStep { s with cancelled := insertIfAbsent id s.cancelled }
          (.finish id) s'' ∧
        id ∈ s''.settled ∧
        findTask s''.tasks task.id =
          some { task with lastCompleted := some s.clock }) := by
  constructor
  · intro s₀ s s' id hw0 hreach hp hc hreach'
    have hw := schedWF_reach hreach hw0
    have hinv : CancelInv id s := by
      obtain ⟨hlog, hrun, hset⟩ := hw.pendingFresh id hp
      exact ⟨hw.pendingLt id hp, hlog, hrun, hset, fun _ => hc⟩
    have key := cancelInv_reach id hreach' hw hinv
    obtain ⟨-, hlog', -, hset', -⟩ := key.2
    exact ⟨fun tid hmem => hlog' (id, tid) hmem rfl, hset'⟩
  · intro s id job task hrun hjob htask
    have htid : task.id = job.taskId := (findTask_some _ _ _ htask).2
    refine ⟨SchedStep.cancel s id job hjob, rfl, rfl, rfl, rfl, rfl, ?_⟩
    refine ⟨_, SchedStep.finish _ id job task hrun hjob htask, ?_, ?_⟩
    · exact List.mem_cons_self _ _
    · have hfind : findTask s.tasks task.id = some task := by
        rw [htid]; exact htask
      have := findTask_updateTask s.tasks
        { task with lastCompleted := some s.clock } task task.id hfind
      simp only [if_pos rfl] at this
      simpa using this

/-- State with job 4 (task 9) pending and already marked cancelled. -/
def c3PendingState : SchedState :=
  ⟨[⟨9, [], none⟩], [⟨4, 9⟩], [4], [4], [], [], [], 5, 0⟩

/-- State with job 4 (task 9) popped and running. -/
def c3RunningState : SchedState :=
  ⟨[⟨9, [], none⟩], [⟨4, 9⟩], [], [], [4], [], [(4, 9)], 5, 0⟩

/-- Witness for the cancellation theorem: applied at the concrete pending
state (cancel before pop: never executed, never settled) and at the concrete
running state (cancel after pop: the finish step still settles handle 4). -/
theorem cancelJob_before_after_pop_witness :
    ((∀ tid : Nat, ((4 : Nat), tid) ∉ c3PendingState.execLog) ∧
      (4 : Nat) ∉ c3PendingState.settled) ∧
    (∃ s'' : SchedState,
      SchedStep
        { c3RunningState with
            cancelled := insertIfAbsent 4 c3RunningState.cancelled }
        (.finish 4) s'' ∧
      (4 : Nat) ∈ s''.settled ∧
      findTask s''.tasks 9 =
        some ⟨9, [], some c3RunningState.clock⟩) := by
  constructor
  · refine cancelJob_before_after_pop.1 c3PendingState c3PendingState
      c3PendingState 4 ?_ Relation.ReflTransGen.refl (by decide) (by decide)
      Relation.ReflTransGen.refl
    constructor <;> simp [c3PendingState]
  · have h := cancelJob_before_after_pop.2 c3RunningState 4 ⟨4, 9⟩
      ⟨9, [], none⟩ (by decide) (by decide) (by decide)
    obtain ⟨-, -, -, -, -, -, s'', hstep, hset, hfind⟩ := h
    exact ⟨s'', hstep, hset, hfind⟩

theorem findJobById_removeJobById (jobs : List SchedJob) (j : Nat) :
    findJobById (removeJobById jobs j) j = none := by
  unfold findJobById removeJobById
  rw [List.find?_eq_none]
  intro x hx
  have := List.of_mem_filter hx
  simpa using this

/-- **C7** — Job-store lifecycle.  (1) In every reachable state there is at
most one job per task id in the store (their task ids are pairwise
distinct), hence at most one non-cancelled Job per task.  (2) Completion
removes the job record: after a `finish` step the finished job id no longer
resolves in the store.  (3) Cancellation removes the job record: the
system's cancellation path (`dropDocument`: `cancelJob` + `store.jobs.remove`)
leaves no job for the dropped task, so no Job record outlives the settlement
or abandonment of its handle. -/
theorem job_store_lifecycle :
    (∀ s₀ s : SchedState, SchedWF s₀ → SchedReach s₀ s →
      (s.jobs.map (fun j => j.taskId)).Nodup) ∧
    (∀ (s s' : SchedState) (j : Nat), SchedStep s (.finish j) s' →
      findJobById s'.jobs j = none) ∧
    (∀ (s s' : SchedState) (tid : Nat), SchedWF s →
      SchedStep s (.drop tid) s' → findJob s'.jobs tid = none) := by
  refine ⟨?_, ?_, ?_⟩
  · intro s₀ s hw hreach
    exact (schedWF_reach hreach hw).jobsTaskIdsNodup
  · intro s s' j hstep
    cases hstep with
    | finish job task hr hjob htask =>
      exact findJobById_removeJobById s.jobs j
  · intro s s' tid hw hstep
    cases hstep with
    | drop t ht =>
      unfold dropTask
      cases hfj : findJob s.jobs t.id with
      | none => exact hfj
      | some job =>
        dsimp only
        obtain ⟨hmem, htid⟩ := findJob_some s.jobs t.id job hfj
        rw [findJob_none_iff]
        intro j' hj' htid'
        have hj'mem := List.of_mem_filter hj'
        have hj'in := List.mem_of_mem_filter hj'
        have heq : j' = job :=
          List.inj_on_of_nodup_map hw.jobsTaskIdsNodup hj'in hmem
            (by rw [htid', htid])
        subst heq
        simp at hj'mem

/-- Witness for the job-store lifecycle theorem: the three parts applied at
concrete states — the single-job state is duplicate-free; finishing running
job 4 removes it from the store; dropping task 9 removes its job 4. -/
theorem job_store_lifecycle_witness :
    (c1WitnessState.jobs.map (fun j => j.taskId)).Nodup ∧
    (∃ s'' : SchedState, SchedStep c3RunningState (.finish 4) s'' ∧
      findJobById s''.jobs 4 = none) ∧
    findJob (dropTask c3PendingState 9).jobs 9 = none := by
  refine ⟨?_, ?_, ?_⟩
  · exact job_store_lifecycle.1 c1WitnessState c1WitnessState
      (by constructor <;> simp [c1WitnessState]) Relation.ReflTransGen.refl
  · have hstep : SchedStep c3RunningState (.finish 4)
        { c3RunningState with
            running := c3RunningState.running.erase 4,
            tasks := updateTask c3RunningState.tasks
              ⟨9, [], some c3RunningState.clock⟩,
            jobs := removeJobById c3RunningState.jobs 4,
            settled := 4 :: c3RunningState.settled,
            clock := c3RunningState.clock + 1 } :=
      SchedStep.finish c3RunningState 4 ⟨4, 9⟩ ⟨9, [], none⟩ (by decide)
        (by decide) (by decide)
    exact ⟨_, hstep, job_store_lifecycle.2.1 c3RunningState _ 4 hstep⟩
  · have hstep : SchedStep c3PendingState (.drop 9)
        (dropTask c3PendingState 9) :=
      SchedStep.drop c3PendingState ⟨9, [], none⟩ (by decide)
    exact job_store_lifecycle.2.2 c3PendingState _ 9
      (by constructor <;> simp [c3PendingState]) hstep

-- ===== C2: dependency ordering =============================================

/-- "Unit of work of job `j` has begun" — `j` appears in the execution log. -/
def BeganExec (s : SchedState) (j : Nat) : Prop :=
  ∃ e ∈ s.execLog, e.1 = j

/-- Two unscheduled tasks: task 2 depends on task 1. -/
def c2State0 : SchedState :=
  ⟨[⟨1, [], none⟩, ⟨2, [1], none⟩], [], [], [], [], [], [], 1, 0⟩

/-- After `submitTask` on task 2: job 1 (task 1) was created and enqueued
first, then job 2 (task 2). -/
def c2S1 : SchedState := (submitTask 1 c2State0 ⟨2, [1], none⟩).2

/-- After the first queue signal: job 1 popped (it is the comparator
maximum), task 1's unit of work begun and suspended at its await. -/
def c2S2 : SchedState :=
  { c2S1 with pending := c2S1.pending.erase 1,
              running := 1 :: c2S1.running,
              execLog := (1, 1) :: c2S1.execLog }

/-- After the second queue signal: job 2 popped while job 1 is still
running — task 2's unit of work begins before task 1 completes. -/
def c2S3 : SchedState :=
  { c2S2 with pending := c2S2.pending.erase 2,
              running := 2 :: c2S2.running,
              execLog := (2, 2) :: c2S2.execLog }

/-- **C2, counterexample** — task 2 lists task 1 among its `dependencyIds`
and both are unscheduled in `c2State0`; submitting task 2 schedules task 1
first, but the scheduler never awaits the dependency's completion: in the
reachable state `c2S3` task 2's unit of work has begun (entry `(2, 2)` in
the execution log) while task 1's `lastCompleted` is still unset.  Every pop
in the trace takes the comparator-maximal pending id, so this is a run of
the implemented draining discipline, not an artifact of the model. -/
theorem dependency_completion_counterexample :
    findTask c2State0.tasks 2 = some ⟨2, [1], none⟩ ∧
    findTask c2State0.tasks 1 = some ⟨1, [], none⟩ ∧
    SchedReach c2State0 c2S3 ∧
    BeganExec c2S3 2 ∧
    findTask c2S3.tasks 1 = some ⟨1, [], none⟩ := by
  refine ⟨by decide, by decide, ?_, ?_, by decide⟩
  · have h1 : SchedStep c2State0 (.submit 2 1) c2S1 :=
      SchedStep.submit c2State0 ⟨2, [1], none⟩ 1 (by decide)
    have h2 : SchedStep c2S1 (.popRun 1) c2S2 :=
      SchedStep.popRun c2S1 1 ⟨1, 1⟩ (by decide) (by decide) (by decide)
    have h3 : SchedStep c2S2 (.popRun 2) c2S3 :=
      SchedStep.popRun c2S2 2 ⟨2, 2⟩ (by decide) (by decide) (by decide)
    exact Relation.ReflTransGen.tail
      (Relation.ReflTransGen.tail
        (Relation.ReflTransGen.tail Relation.ReflTransGen.refl ⟨_, h1⟩)
        ⟨_, h2⟩)
      ⟨_, h3⟩
  · exact ⟨(2, 2), by decide, rfl⟩

theorem findJobById_append_left (l l' : List SchedJob) (i : Nat)
    (x : SchedJob) (h : findJobById l i = some x) :
    findJobById (l ++ l') i = some x := by
  unfold findJobById at h ⊢
  rw [List.find?_append, h]
  rfl

theorem findJobById_append_skip (l l' : List SchedJob) (i : Nat)
    (h : ∀ j ∈ l, j.id ≠ i) :
    findJobById (l ++ l') i = findJobById l' i := by
  unfold findJobById
  rw [List.find?_append]
  have hl : l.find? (fun j => j.id == i) = none := by
    rw [List.find?_eq_none]
    intro x hx
    simpa using h x hx
  rw [hl]
  rfl

theorem findJobById_filter_ne (l : List SchedJob) (i k : Nat) (x : SchedJob)
    (h : findJobById l i = some x) (hne : i ≠ k) :
    findJobById (removeJobById l k) i = some x := by
  induction l with
  | nil => simp [findJobById] at h
  | cons e rest ih =>
    unfold findJobById at h
    unfold findJobById removeJobById
    rw [List.find?_cons] at h
    by_cases he : e.id = i
    · have hb : (e.id == i) = true := by simpa using he
      rw [hb] at h
      dsimp only at h
      have hke : ¬ e.id = k := by omega
      rw [List.filter_cons_of_pos (by simpa using hke), List.find?_cons, hb]
      exact h
    · have hb : (e.id == i) = false := by simpa using he
      rw [hb] at h
      dsimp only at h
      by_cases hke : e.id = k
      · rw [List.filter_cons_of_neg (by simpa using hke)]
        exact ih h
      · rw [List.filter_cons_of_pos (by simpa using hke), List.find?_cons, hb]
        dsimp only
        exact ih h

/-- Invariant behind the amended dependency-ordering claim, for fixed task
ids `aid`, `bid` (with `bid`'s task listing `aid` as a dependency) and their
job ids `jA`, `jB`: along cancellation-free runs, `jB` can only be popped
once `jA` is no longer pending, so `jB`'s unit of work never begins before
`jA`'s has. -/
structure DepInv (aid bid jA jB : Nat) (s : SchedState) : Prop where
  taskB : ∃ tB, findTask s.tasks bid = some tB ∧ aid ∈ tB.dependencyIds
  taskA : ∃ tA, findTask s.tasks aid = some tA
  cancelA : jA ∉ s.cancelled
  cancelB : jB ∉ s.cancelled
  ltA : jA < s.nextJobId
  ltB : jB < s.nextJobId
  neAB : jA ≠ jB
  jobA : jA ∈ s.pending → findJobById s.jobs jA = some ⟨jA, aid⟩
  jobB : jB ∈ s.pending → findJobById s.jobs jB = some ⟨jB, bid⟩
  aState : jA ∈ s.pending ∨ BeganExec s jA
  order : BeganExec s jB → BeganExec s jA

theorem depInv_step (aid bid jA jB : Nat) {s s' : SchedState} {ev : SchedEv}
    (hstep : SchedStep s ev s')
    (hnc : ∀ id, ev ≠ .cancel id) (hnd : ∀ tid, ev ≠ .drop tid)
    (hw : SchedWF s) (hi : DepInv aid bid jA jB s) :
    DepInv aid bid jA jB s' := by
  cases hstep with
  | submit t fuel ht =>
    obtain ⟨w⟩ := submitTask_ext fuel s t
    have hpend : ∀ i, i < s.nextJobId →
        (i ∈ (submitTask fuel s t).2.pending → i ∈ s.pending) := by
      intro i hlt hmem
      rw [w.pending_eq] at hmem
      rcases List.mem_append.mp hmem with h1 | h2
      · exact h1
      · simp only [List.mem_map] at h2
        obtain ⟨j, hj, hid⟩ := h2
        have := (w.newIdsFresh j hj).1
        omega
    constructor
    · rw [w.tasks_eq]; exact hi.taskB
    · rw [w.tasks_eq]; exact hi.taskA
    · rw [w.cancelled_eq]; exact hi.cancelA
    · rw [w.cancelled_eq]; exact hi.cancelB
    · exact lt_of_lt_of_le hi.ltA w.nextLe
    · exact lt_of_lt_of_le hi.ltB w.nextLe
    · exact hi.neAB
    · intro hmem
      have := hi.jobA (hpend jA hi.ltA hmem)
      rw [w.jobs_eq]
      exact findJobById_append_left _ _ _ _ this
    · intro hmem
      have := hi.jobB (hpend jB hi.ltB hmem)
      rw [w.jobs_eq]
      exact findJobById_append_left _ _ _ _ this
    · rcases hi.aState with h1 | h2
      · left
        rw [w.pending_eq]
        exact List.mem_append_left _ h1
      · right
        obtain ⟨e, he, heq⟩ := h2
        exact ⟨e, by rw [w.execLog_eq]; exact he, heq⟩
    · intro hb
      obtain ⟨e, he, heq⟩ := hb
      rw [w.execLog_eq] at he
      obtain ⟨e', he', heq'⟩ := hi.order ⟨e, he, heq⟩
      exact ⟨e', by rw [w.execLog_eq]; exact he', heq'⟩
  | popCancelled j hmax hc =>
    have hneA : jA ≠ j := fun h => hi.cancelA (h ▸ hc)
    have hneB : jB ≠ j := fun h => hi.cancelB (h ▸ hc)
    constructor
    · exact hi.taskB
    · exact hi.taskA
    · intro hmem
      exact hi.cancelA (List.mem_of_mem_erase hmem)
    · intro hmem
      exact hi.cancelB (List.mem_of_mem_erase hmem)
    · exact hi.ltA
    · exact hi.ltB
    · exact hi.neAB
    · intro hmem
      exact hi.jobA (List.mem_of_mem_erase hmem)
    · intro hmem
      exact hi.jobB (List.mem_of_mem_erase hmem)
    · rcases hi.aState with h1 | h2
      · left
        exact (List.mem_erase_of_ne hneA).mpr h1
      · right
        exact h2
    · exact hi.order
  | popRun j job hmax hc hjob =>
    constructor
    · exact hi.taskB
    · exact hi.taskA
    · exact hi.cancelA
    · exact hi.cancelB
    · exact hi.ltA
    · exact hi.ltB
    · exact hi.neAB
    · intro hmem
      exact hi.jobA (List.mem_of_mem_erase hmem)
    · intro hmem
      exact hi.jobB (List.mem_of_mem_erase hmem)
    · rcases hi.aState with h1 | h2
      · by_cases hj : j = jA
        · right
          exact ⟨(j, job.taskId), List.mem_cons_self _ _, hj⟩
        · left
          exact (List.mem_erase_of_ne (fun h => hj h.symm)).mpr h1
      · right
        obtain ⟨e, he, heq⟩ := h2
        exact ⟨e, List.mem_cons_of_mem _ he, heq⟩
    · intro hb
      obtain ⟨e, he, heq⟩ := hb
      rcases List.mem_cons.mp he with rfl | htail
      · -- the popped id is jB: jA cannot still be pending, because then
        -- the comparator would rank jB strictly below jA
        have hjB : j = jB := heq
        subst hjB
        rcases hi.aState with hA | hA
        · exfalso
          have hcmp := hmax.2 jA hA
          have hjobA := hi.jobA hA
          have hjobB := hi.jobB hmax.1
          obtain ⟨tB, htB, htBdep⟩ := hi.taskB
          obtain ⟨tA, htA⟩ := hi.taskA
          have htAid : tA.id = aid := (findTask_some _ _ _ htA).2
          unfold jobCompare at hcmp
          rw [if_neg hc, if_neg hi.cancelA, hjob] at hcmp
          have hjobeq : job = ⟨j, bid⟩ := by
            rw [hjob] at hjobB
            exact Option.some.inj hjobB
          rw [hjobeq, hjobA] at hcmp
          dsimp only at hcmp
          rw [htB, htA] at hcmp
          dsimp only at hcmp
          rw [if_pos (htAid ▸ htBdep)] at hcmp
          omega
        · obtain ⟨e', he', heq'⟩ := hA
          exact ⟨e', List.mem_cons_of_mem _ he', heq'⟩
      · obtain ⟨e', he', heq'⟩ := hi.order ⟨e, htail, heq⟩
        exact ⟨e', List.mem_cons_of_mem _ he', heq'⟩
  | finish j job task hr hjob htask =>
    have hjne : ∀ i, i ∈ s.pending → i ≠ j := by
      intro i hmem hne
      obtain ⟨-, hrun, -⟩ := hw.pendingFresh i hmem
      exact hrun (hne ▸ hr)
    constructor
    · obtain ⟨tB, htB, hdep⟩ := hi.taskB
      have hlem := findTask_updateTask s.tasks
        { task with lastCompleted := some s.clock } tB bid htB
      by_cases hvb :
          ({ task with lastCompleted := some s.clock } : SchedTask).id = bid
      · rw [if_pos hvb] at hlem
        refine ⟨_, hlem, ?_⟩
        have htid : task.id = job.taskId := (findTask_some _ _ _ htask).2
        have hbid : job.taskId = bid := by
          have : task.id = bid := hvb
          omega
        have hfind : findTask s.tasks bid = some task := by
          rw [← hbid]; exact htask
        have htaskeq : task = tB := by
          rw [hfind] at htB
          exact Option.some.inj htB
        simpa [htaskeq] using hdep
      · rw [if_neg hvb] at hlem
        exact ⟨tB, hlem, hdep⟩
    · obtain ⟨tA, htA⟩ := hi.taskA
      have hlem := findTask_updateTask s.tasks
        { task with lastCompleted := some s.clock } tA aid htA
      by_cases hva :
          ({ task with lastCompleted := some s.clock } : SchedTask).id = aid
      · rw [if_pos hva] at hlem
        exact ⟨_, hlem⟩
      · rw [if_neg hva] at hlem
        exact ⟨tA, hlem⟩
    · exact hi.cancelA
    · exact hi.cancelB
    · exact hi.ltA
    · exact hi.ltB
    · exact hi.neAB
    · intro hmem
      exact findJobById_filter_ne s.jobs jA j _ (hi.jobA hmem) (hjne jA hmem)
    · intro hmem
      exact findJobById_filter_ne s.jobs jB j _ (hi.jobB hmem) (hjne jB hmem)
    · exact hi.aState
    · exact hi.order
  | cancel j job hjob =>
    exact absurd rfl (hnc j)
  | drop t ht =>
    exact absurd rfl (hnd t.id)

theorem depInv_reachNC (aid bid jA jB : Nat) {s s' : SchedState}
    (h : SchedReachNC s s') (hw : SchedWF s) (hi : DepInv aid bid jA jB s) :
    SchedWF s' ∧ DepInv aid bid jA jB s' := by
  induction h with
  | refl => exact ⟨hw, hi⟩
  | tail hab hbc ih =>
    obtain ⟨ev, hstep, hnc, hnd⟩ := hbc
    exact ⟨schedWF_step hstep ih.1,
      depInv_step aid bid jA jB hstep hnc hnd ih.1 ih.2⟩

theorem submitTask_noDeps (fuel : Nat) (s : SchedState) (a : SchedTask)
    (hA : findJob s.jobs a.id = none) (hdeps : a.dependencyIds = []) :
    submitTask fuel s a = (some s.nextJobId,
      { s with jobs := s.jobs ++ [⟨s.nextJobId, a.id⟩],
               pending := s.pending ++ [s.nextJobId],
               nextJobId := s.nextJobId + 1 }) := by
  rw [submitTask.eq_def, hA]
  dsimp only
  have hfilter : s.tasks.filter (fun tk => a.dependencyIds.contains tk.id)
      = [] := by
    rw [hdeps]
    simp
  rw [hfilter]
  cases fuel with
  | zero =>
    dsimp only
    rw [hA]
  | succ fuel' =>
    dsimp only
    rw [show submitDeps (fun s2 d => submitTask fuel' s2 d) s [] = (true, s)
      from rfl]
    dsimp only
    rw [hA]

theorem submitTask_scenario (fuel : Nat) (s₀ : SchedState) (a b : SchedTask)
    (hA0 : findJob s₀.jobs a.id = none) (hB0 : findJob s₀.jobs b.id = none)
    (hAB : a.id ≠ b.id) (hAdeps : a.dependencyIds = [])
    (hAlc : a.lastCompleted = none)
    (hfilter : s₀.tasks.filter (fun tk => b.dependencyIds.contains tk.id)
      = [a]) :
    submitTask (fuel + 1) s₀ b = (some (s₀.nextJobId + 1),
      { s₀ with
          jobs := s₀.jobs ++
            [⟨s₀.nextJobId, a.id⟩, ⟨s₀.nextJobId + 1, b.id⟩],
          pending := s₀.pending ++ [s₀.nextJobId, s₀.nextJobId + 1],
          nextJobId := s₀.nextJobId + 2 }) := by
  rw [submitTask.eq_def, hB0]
  dsimp only
  rw [hfilter]
  have h1 : submitDeps (fun s2 d => submitTask fuel s2 d) s₀ [a] =
      (true, { s₀ with
        jobs := s₀.jobs ++ [⟨s₀.nextJobId, a.id⟩],
        pending := s₀.pending ++ [s₀.nextJobId],
        nextJobId := s₀.nextJobId + 1 }) := by
    rw [submitDeps]
    rw [if_pos ⟨hAlc, hA0⟩]
    rw [submitTask_noDeps fuel s₀ a hA0 hAdeps]
    rfl
  rw [h1]
  dsimp only
  have h2 : findJob (s₀.jobs ++ [⟨s₀.nextJobId, a.id⟩]) b.id = none := by
    unfold findJob at hB0 ⊢
    rw [List.find?_append, hB0]
    have : (List.find? (fun j => j.taskId == b.id)
        [(⟨s₀.nextJobId, a.id⟩ : SchedJob)]) = none := by
      rw [List.find?_eq_none]
      intro x hx
      simp only [List.mem_singleton] at hx
      subst hx
      simpa using hAB
    rw [this]
    rfl
  rw [h2]
  simp

/-- **C2, amended** — For tasks `a`, `b` with `b.dependencyIds = [a.id]`
(`a` itself dependency-free) and both unscheduled (no live job, no
`lastCompleted`): submitting `b` schedules `a` FIRST — `a`'s job is created
and enqueued before `b`'s job — and in every cancellation-free continuation
`b`'s unit of work BEGINS only after `a`'s unit of work has begun (the
comparator pops the dependency first).  The dependency's COMPLETION, however,
is not awaited: `a.lastCompleted` need not be stamped before `b`'s work
starts (see the counterexample). -/
theorem dependency_scheduling_amended :
    ∀ (s₀ : SchedState) (a b : SchedTask) (fuel : Nat),
    SchedWF s₀ →
    a.id ≠ b.id →
    b.dependencyIds = [a.id] → a.dependencyIds = [] →
    a.lastCompleted = none → b.lastCompleted = none →
    findJob s₀.jobs a.id = none → findJob s₀.jobs b.id = none →
    s₀.tasks.filter (fun tk => b.dependencyIds.contains tk.id) = [a] →
    findTask s₀.tasks a.id = some a →
    findTask s₀.tasks b.id = some b →
    (submitTask (fuel + 1) s₀ b).2.jobs =
      s₀.jobs ++ [⟨s₀.nextJobId, a.id⟩, ⟨s₀.nextJobId + 1, b.id⟩] ∧
    (submitTask (fuel + 1) s₀ b).2.pending =
      s₀.pending ++ [s₀.nextJobId, s₀.nextJobId + 1] ∧
    (∀ s', SchedReachNC (submitTask (fuel + 1) s₀ b).2 s' →
      BeganExec s' (s₀.nextJobId + 1) → BeganExec s' (s₀.nextJobId)) := by
  intro s₀ a b fuel hw hAB hbdeps hAdeps hAlc hBlc hA0 hB0 hfilter htA htB
  have hsc := submitTask_scenario fuel s₀ a b hA0 hB0 hAB hAdeps hAlc hfilter
  have hstate : (submitTask (fuel + 1) s₀ b).2 =
      { s₀ with
          jobs := s₀.jobs ++
            [⟨s₀.nextJobId, a.id⟩, ⟨s₀.nextJobId + 1, b.id⟩],
          pending := s₀.pending ++ [s₀.nextJobId, s₀.nextJobId + 1],
          nextJobId := s₀.nextJobId + 2 } := by
    rw [hsc]
  refine ⟨by rw [hstate], by rw [hstate], ?_⟩
  intro s' hreach hbegan
  have hw1 : SchedWF (submitTask (fuel + 1) s₀ b).2 :=
    schedWF_submitExt (submitTask_ext (fuel + 1) s₀ b) hw
  have hinv : DepInv a.id b.id s₀.nextJobId (s₀.nextJobId + 1)
      (submitTask (fuel + 1) s₀ b).2 := by
    rw [hstate]
    constructor
    · refine ⟨b, htB, ?_⟩
      rw [hbdeps]
      exact List.mem_singleton.mpr rfl
    · exact ⟨a, htA⟩
    · intro hmem
      have := hw.cancelledLt _ hmem
      omega
    · intro hmem
      have := hw.cancelledLt _ hmem
      omega
    · show s₀.nextJobId < s₀.nextJobId + 2
      omega
    · show s₀.nextJobId + 1 < s₀.nextJobId + 2
      omega
    · omega
    · intro hmem
      show findJobById (s₀.jobs ++
        [⟨s₀.nextJobId, a.id⟩, ⟨s₀.nextJobId + 1, b.id⟩]) s₀.nextJobId =
        some ⟨s₀.nextJobId, a.id⟩
      rw [findJobById_append_skip _ _ _
        (fun j hj => by have := hw.jobsLt j hj; omega)]
      unfold findJobById
      rw [List.find?_cons]
      have hb : ((⟨s₀.nextJobId, a.id⟩ : SchedJob).id == s₀.nextJobId)
          = true := by simp
      rw [hb]
    · intro hmem
      show findJobById (s₀.jobs ++
        [⟨s₀.nextJobId, a.id⟩, ⟨s₀.nextJobId + 1, b.id⟩]) (s₀.nextJobId + 1) =
        some ⟨s₀.nextJobId + 1, b.id⟩
      rw [findJobById_append_skip _ _ _
        (fun j hj => by have := hw.jobsLt j hj; omega)]
      unfold findJobById
      rw [List.find?_cons]
      have hb1 : ((⟨s₀.nextJobId, a.id⟩ : SchedJob).id == s₀.nextJobId + 1)
          = false := by simp
      rw [hb1]
      dsimp only
      rw [List.find?_cons]
      have hb2 : ((⟨s₀.nextJobId + 1, b.id⟩ : SchedJob).id ==
          s₀.nextJobId + 1) = true := by simp
      rw [hb2]
    · left
      show s₀.nextJobId ∈ s₀.pending ++ [s₀.nextJobId, s₀.nextJobId + 1]
      exact List.mem_append_right _ (List.mem_cons_self _ _)
    · rintro ⟨e, he, heq⟩
      have : e ∈ s₀.execLog := he
      have := hw.logLt e this
      omega
  exact ((depInv_reachNC a.id b.id s₀.nextJobId (s₀.nextJobId + 1)
    hreach hw1 hinv).2).order hbegan

/-- Witness for the amended scheduling theorem at the concrete two-task
scenario: submitting task 2 (which depends on task 1) creates and enqueues
task 1's job first. -/
theorem dependency_scheduling_amended_witness :
    (submitTask 1 c2State0 ⟨2, [1], none⟩).2.jobs = [⟨1, 1⟩, ⟨2, 2⟩] ∧
    (submitTask 1 c2State0 ⟨2, [1], none⟩).2.pending = [1, 2] := by
  have h := dependency_scheduling_amended c2State0 ⟨1, [], none⟩
    ⟨2, [1], none⟩ 0 (by constructor <;> simp [c2State0]) (by decide) rfl rfl
    rfl rfl (by decide) (by decide) (by decide) (by decide) (by decide)
  exact ⟨by simpa using h.1, by simpa using h.2.1⟩

-- ***************************************************************************
-- ****** SERVER DOCUMENT LIFECYCLE (src/server.ts) **************************
-- ***************************************************************************

/-- `DocumentState` (`src/types/document.ts`): open in the editor
(`editing`) or only indexed from disk (`indexing`). -/
inductive DocumentState where
  | editing
  | indexing
deriving Repr, DecidableEq

/-- `WorkspaceType` (`src/types/workspace.ts`). -/
inductive WorkspaceType where
  | singleFile
  | multiFile
deriving Repr, DecidableEq

structure SrvDoc where
  id : Nat
  uri : List Char
  workspaceId : Nat
  state : DocumentState
deriving Repr, DecidableEq

structure SrvWorkspace where
  id : Nat
  uri : List Char
deriving Repr, DecidableEq

structure SrvTask where
  id : Nat
  documentId : Nat
deriving Repr, DecidableEq

structure SrvJob where
  id : Nat
  taskId : Nat
deriving Repr, DecidableEq

/-- The store collections the close handler touches, plus the task manager's
cancelled set. -/
structure ServerState where
  documents : List SrvDoc
  workspaces : List SrvWorkspace
  tasks : List SrvTask
  jobs : List SrvJob
  cancelled : List Nat
deriving Repr, DecidableEq

/-- `Workspace.type`: single-file iff the workspace uri matches `/\.rst$/`. -/
def workspaceType (ws : SrvWorkspace) : WorkspaceType :=
  if ".rst".data.isSuffixOf ws.uri then .singleFile else .multiFile

/-- `Server.dropDocument` (`server.ts` lines 563–574): for each of the
document's tasks, cancel and remove its live job (if any) and remove the
task; finally remove the document. -/
def dropDocument (s : ServerState) (doc : SrvDoc) : ServerState :=
  let docTasks := s.tasks.filter (fun t => t.documentId == doc.id)
  let s1 := docTasks.foldl (fun acc task =>
    let acc2 :=
      match acc.jobs.find? (fun j => j.taskId == task.id) with
      | some job =>
        { acc with cancelled := insertIfAbsent job.id acc.cancelled,
                   jobs := acc.jobs.filter (fun j => j.id ≠ job.id) }
      | none => acc
    { acc2 with tasks := acc2.tasks.filter (fun t => t.id ≠ task.id) }) s
  { s1 with documents := s1.documents.filter (fun d => d.id ≠ doc.id) }

/-- `Server.dropWorkspace` (`server.ts` lines 576–582): drop every owned
document, then remove the workspace record. -/
def dropWorkspace (s : ServerState) (ws : SrvWorkspace) : ServerState :=
  let wsDocs := s.documents.filter (fun d => d.workspaceId == ws.id)
  let s1 := wsDocs.foldl (fun acc d => dropDocument acc d) s
  { s1 with workspaces := s1.workspaces.filter (fun w => w.id ≠ ws.id) }

/-- `Server.onDidCloseTextDocument` (`server.ts` lines 174–191), translated
verbatim — including the test
`idoc.uri === uri || doc.state === DocumentState.indexing`, which consults
the state of the CLOSING document `doc`, not the iterated `idoc`.  A `none`
result models the exception thrown by a failed `safeCollectionGet`. -/
def onDidCloseTextDocument (s : ServerState) (uri : List Char) :
    Option ServerState :=
  match s.documents.find? (fun d => d.uri == uri) with
  | none => none
  | some doc =>
    match s.workspaces.find? (fun w => w.id == doc.workspaceId) with
    | none => none
    | some ws =>
      if workspaceType ws = .singleFile then
        match s.workspaces.find? (fun w => w.uri == uri) with
        | none => none
        | some ws' => some (dropWorkspace s ws')
      else
        let noRemainingDocsOpen :=
          (s.documents.filter (fun d => d.workspaceId == ws.id)).all
            (fun idoc => idoc.uri == uri ||
              decide (doc.state = DocumentState.indexing))
        if noRemainingDocsOpen then some (dropWorkspace s ws)
        else some
          { s with documents := s.documents.map (fun d =>
              if d.id = doc.id then { d with state := .indexing } else d) }

/-- Modelled from the spec: "destroyed on close (single-file) or when the
last open document in a multi-file workspace closes" — the closing document
is the last open one when every OTHER owned document is not open
(state = indexing).  This is the condition the source's `every` callback
plainly meant to test with `idoc.state`. -/
def lastOpenDocumentCloses (s : ServerState) (ws : SrvWorkspace)
    (uri : List Char) : Bool :=
  (s.documents.filter (fun d => d.workspaceId == ws.id)).all
    (fun idoc => idoc.uri == uri ||
      decide (idoc.state = DocumentState.indexing))

/-- Multi-file workspace 1 with document 1 open (`editing`, being closed)
and document 2 closed (`indexing`). -/
def c8State : ServerState :=
  ⟨[⟨1, "w/a.rst".data, 1, .editing⟩, ⟨2, "w/b.rst".data, 1, .indexing⟩],
   [⟨1, "w".data⟩],
   [⟨10, 1⟩, ⟨11, 2⟩],
   [⟨20, 10⟩],
   []⟩

/-- **C8** — Closing the last open document of a multi-file workspace does
NOT destroy the workspace: in `c8State`, document 1 is the only open
document of multi-file workspace 1 (document 2 is `indexing`, as
`lastOpenDocumentCloses` certifies), yet `onDidCloseTextDocument` keeps the
workspace, all documents, tasks and jobs, and merely flips document 1 to
`indexing`.  The handler's `every` callback tests `doc.state` — the closing
document's own state — instead of `idoc.state`, so `noRemainingDocsOpen` is
false whenever a second document exists.  The spec's cascade (drop the
workspace's documents, tasks and jobs) never fires on this input. -/
theorem close_last_open_document_bug :
    lastOpenDocumentCloses c8State ⟨1, "w".data⟩ "w/a.rst".data = true ∧
    workspaceType ⟨1, "w".data⟩ = WorkspaceType.multiFile ∧
    onDidCloseTextDocument c8State "w/a.rst".data =
      some { c8State with
        documents :=
          [⟨1, "w/a.rst".data, 1, .indexing⟩,
           ⟨2, "w/b.rst".data, 1, .indexing⟩] } ∧
    (onDidCloseTextDocument c8State "w/a.rst".data).map
      (fun s' => s'.workspaces) = some [⟨1, "w".data⟩] ∧
    (onDidCloseTextDocument c8State "w/a.rst".data).map
      (fun s' => s'.jobs) = some [⟨20, 10⟩] := by
  refine ⟨by decide, by decide, by decide, by decide, by decide⟩

-- ***************************************************************************
-- ****** DOCUMENT / WORKSPACE CACHE INVALIDATION ****************************
-- ***************************************************************************

/-- A document as seen by the cache layer: its text-buffer state and its
memoised query-fact cache (`Document.cache`).  The fact payload is an
abstract type `α`, since the facts themselves come from the external
tree-sitter queries; the extraction function is a parameter `f` of the
theorems and is instantiated concretely in the counterexample. -/
structure CacheDoc (α : Type) where
  uri : Nat
  doc : TextDocState
  state : DocumentState
  cache : Option α
deriving Repr, DecidableEq

/-- `Document.update` (`src/types/document.ts` lines 158–161):
`TreeSitterTextDocument.update` on the buffer, then `clearCache()`. -/
def cacheDocUpdate {α : Type} (d : CacheDoc α) (version : Int)
    (changes : List ChangeEvent) : CacheDoc α :=
  { d with doc := ftdUpdate d.doc changes version, cache := none }

/-- The `memoize` property interceptor (`src/util.ts` lines 342–350) on a
document fact getter: return the cached value if present, else compute from
the current text and store it. -/
def docFactsRead {α : Type} (f : List Char → α) (d : CacheDoc α) :
    α × CacheDoc α :=
  match d.cache with
  | some v => (v, d)
  | none => (f d.doc.content, { d with cache := some (f d.doc.content) })

/-- A workspace as seen by the cache layer: just its memoised table cache
(`Workspace.cache`, cleared wholesale by `clearCache`). -/
structure CacheWs (β : Type) where
  cache : Option β
deriving Repr, DecidableEq

/-- A memoised workspace table getter (`referencesByKey` /
`referencesByCitekey` / `sectionsByCitekey` / `sectionTree` shape): return
the cached table if present, else aggregate the member documents' memoised
facts with `g` and store the result. -/
def wsTableRead {α β : Type} (f : List Char → α) (g : List α → β)
    (ws : CacheWs β) (docs : List (CacheDoc α)) :
    β × CacheWs β × List (CacheDoc α) :=
  match ws.cache with
  | some v => (v, ws, docs)
  | none =>
    let pairs := docs.map (docFactsRead f)
    let v := g (pairs.map (fun p => p.1))
    (v, ⟨some v⟩, pairs.map (fun p => p.2))

/-- The documents and the owning workspace of the cache model. -/
structure SrvCacheState (α β : Type) where
  docs : List (CacheDoc α)
  ws : CacheWs β
deriving Repr, DecidableEq

/-- `Server.onDidChangeTextDocument` (`server.ts` lines 160–172):
`doc.update(version, contentChanges)`, persist the document, then
`doc.workspace.clearCache()`.  `none` models the thrown lookup failure. -/
def onDidChangeTextDocumentModel {α β : Type} (s : SrvCacheState α β)
    (uri : Nat) (version : Int) (changes : List ChangeEvent) :
    Option (SrvCacheState α β) :=
  match s.docs.find? (fun d => d.uri == uri) with
  | none => none
  | some _ =>
    some { docs := s.docs.map (fun d =>
             if d.uri = uri then cacheDocUpdate d version changes else d),
           ws := ⟨none⟩ }

/-- The rename path for a closed document (`server.ts` lines 286–293,
`onRename`, `idoc.state === DocumentState.indexing` branch):
`idoc.update(idoc.version + 1, contentChanges); idoc.saveToDisk()` — with NO
workspace cache invalidation. -/
def onRenameIndexingTarget {α β : Type} (s : SrvCacheState α β) (uri : Nat)
    (changes : List ChangeEvent) : Option (SrvCacheState α β) :=
  match s.docs.find? (fun d => d.uri == uri) with
  | none => none
  | some _ =>
    some { docs := s.docs.map (fun d =>
             if d.uri = uri then
               cacheDocUpdate d (d.doc.version + 1) changes
             else d),
           ws := s.ws }

/-- Document fact caches hold only values derived from the current text. -/
def CoherentDocs {α : Type} (f : List Char → α)
    (docs : List (CacheDoc α)) : Prop :=
  ∀ d ∈ docs, ∀ v, d.cache = some v → v = f d.doc.content

theorem docFactsRead_fst {α : Type} (f : List Char → α) (d : CacheDoc α)
    (hcoh : ∀ v, d.cache = some v → v = f d.doc.content) :
    (docFactsRead f d).1 = f d.doc.content := by
  unfold docFactsRead
  cases hc : d.cache with
  | none => rfl
  | some v => exact hcoh v hc

/-- State of the three concrete cache-model steps of the counterexample:
one indexing document with text `"x"`, nothing cached yet. -/
def c4S0 : SrvCacheState (List Char) (List Char) :=
  ⟨[⟨1, ⟨"x".data, none, 0⟩, .indexing, none⟩], ⟨none⟩⟩

/-- First workspace-table read: computes and caches the table for `"x"`. -/
def c4S1 : SrvCacheState (List Char) (List Char) :=
  ⟨(wsTableRead id List.flatten c4S0.ws c4S0.docs).2.2,
   (wsTableRead id List.flatten c4S0.ws c4S0.docs).2.1⟩

/-- **C4, counterexample** — the rename path for a closed (indexing)
document calls `update()` on it without invalidating the workspace caches:
after the first read caches the workspace table for text `"x"`, renaming
inside the document replaces its text with `"y"` via `update()` (the
document's own fact cache IS cleared), yet the next workspace-table read
still returns the table computed from `"x"`, not the value derived from the
new text `"y"` — a stale value survives the edit, contradicting the claim
that every `update()` invalidates all workspace-level caches. -/
theorem cache_invalidation_counterexample :
    (wsTableRead id List.flatten c4S0.ws c4S0.docs).1 = "x".data ∧
    ∃ s2 : SrvCacheState (List Char) (List Char),
      onRenameIndexingTarget c4S1 1
        [ChangeEvent.incremental ⟨⟨0, 0⟩, ⟨0, 1⟩⟩ "y".data] = some s2 ∧
      (∃ d ∈ s2.docs, d.uri = 1 ∧ d.doc.content = "y".data ∧
        d.cache = none) ∧
      (wsTableRead id List.flatten s2.ws s2.docs).1 = "x".data ∧
      List.flatten (s2.docs.map (fun d => id d.doc.content)) = "y".data ∧
      ("x".data : List Char) ≠ "y".data := by
  refine ⟨by decide, ?_⟩
  refine ⟨_, rfl, ?_, by decide, by decide, by decide⟩
  decide

/-- **C4, amended** — Cache invalidation as implemented: (1) a document's
own fact caches are invalidated whenever THAT document mutates via
`update()` (`Document.update` always clears its cache); (2) on the
change-notification path (`onDidChangeTextDocument`) the workspace cache is
cleared after the document update, so the next read of any workspace table
recomputes from the current member texts — no stale value survives an edit
arriving as a change notification; (3) the rename path for a closed
(indexing) document, however, mutates the document via `update()` and
leaves the workspace cache untouched (see the counterexample for the
resulting stale read). -/
theorem cache_invalidation_amended :
    (∀ (α : Type) (d : CacheDoc α) (version : Int)
      (changes : List ChangeEvent),
      (cacheDocUpdate d version changes).cache = none) ∧
    (∀ (α β : Type) (f : List Char → α) (g : List α → β)
      (s s' : SrvCacheState α β) (uri : Nat) (version : Int)
      (changes : List ChangeEvent),
      onDidChangeTextDocumentModel s uri version changes = some s' →
      s'.ws.cache = none ∧
      (CoherentDocs f s.docs →
        (wsTableRead f g s'.ws s'.docs).1 =
          g (s'.docs.map (fun d => f d.doc.content)))) ∧
    (∀ (α β : Type) (s s' : SrvCacheState α β) (uri : Nat)
      (changes : List ChangeEvent),
      onRenameIndexingTarget s uri changes = some s' → s'.ws = s.ws) := by
  refine ⟨?_, ?_, ?_⟩
  · intro α d version changes
    rfl
  · intro α β f g s s' uri version changes h
    unfold onDidChangeTextDocumentModel at h
    cases hf : s.docs.find? (fun d => d.uri == uri) with
    | none => rw [hf] at h; exact absurd h (by simp)
    | some d0 =>
      rw [hf] at h
      have hs := Option.some.inj h
      subst hs
      refine ⟨rfl, ?_⟩
      intro hcoh
      have hcoh' : CoherentDocs f (s.docs.map (fun d =>
          if d.uri = uri then cacheDocUpdate d version changes else d)) := by
        intro d' hd' v hv
        simp only [List.mem_map] at hd'
        obtain ⟨d, hd, rfl⟩ := hd'
        by_cases hu : d.uri = uri
        · rw [if_pos hu] at hv ⊢
          exact absurd hv (by simp [cacheDocUpdate])
        · rw [if_neg hu] at hv ⊢
          exact hcoh d hd v hv
      unfold wsTableRead
      dsimp only
      congr 1
      rw [List.map_map]
      refine List.map_congr_left ?_
      intro d hd
      exact docFactsRead_fst f d (fun v hv => hcoh' d hd v hv)
  · intro α β s s' uri changes h
    unfold onRenameIndexingTarget at h
    cases hf : s.docs.find? (fun d => d.uri == uri) with
    | none => rw [hf] at h; exact absurd h (by simp)
    | some d0 =>
      rw [hf] at h
      have hs := Option.some.inj h
      subst hs
      rfl

/-- Witness for the amended cache-invalidation theorem: a concrete
`update()` clears the document cache; a concrete change notification clears
the workspace cache and the next table read reflects the new text. -/
theorem cache_invalidation_amended_witness :
    (cacheDocUpdate
      (⟨1, ⟨"x".data, none, 0⟩, .indexing, some "x".data⟩ :
        CacheDoc (List Char)) 1 [ChangeEvent.full "z".data]).cache = none ∧
    ∃ s' : SrvCacheState (List Char) (List Char),
      onDidChangeTextDocumentModel c4S0 1 1 [ChangeEvent.full "z".data] =
        some s' ∧
      s'.ws.cache = none ∧
      (wsTableRead id List.flatten s'.ws s'.docs).1 =
        List.flatten (s'.docs.map (fun d => id d.doc.content)) := by
  have hcoh : CoherentDocs id c4S0.docs := by
    intro d hd v hv
    have hdq : d = ⟨1, ⟨"x".data, none, 0⟩, .indexing, none⟩ := by
      simpa [c4S0] using hd
    rw [hdq] at hv
    exact absurd hv (by simp)
  refine ⟨cache_invalidation_amended.1 (List Char) _ 1 _, ?_⟩
  refine ⟨_, rfl, ?_, ?_⟩
  · exact (cache_invalidation_amended.2.1 (List Char) (List Char) id
      List.flatten c4S0 _ 1 1 [ChangeEvent.full "z".data] rfl).1
  · exact (cache_invalidation_amended.2.1 (List Char) (List Char) id
      List.flatten c4S0 _ 1 1 [ChangeEvent.full "z".data] rfl).2 hcoh
